import Mathlib

/-!
Verification of `beard.matching.clusters.cluster_assignment` (file
`src/beard/matching/clusters.py`).

The Python function works on dictionaries mapping cluster ids to lists of
entity ids.  We embed dictionaries as insertion-ordered association lists
(`Clusters κ α`); Python dicts always have distinct keys, which theorems
assume explicitly where needed.  Fallible operations (dict lookup `d[k]`,
list indexing `l[i]`, and the caller-supplied similarity function) run in
`Except (PyErr ε)`: `keyError` mirrors Python's `KeyError`, `indexError`
mirrors `IndexError`, and `user e` wraps an exception raised by the cost
function.  The recursive bipartite traversal `graph_traversal` is embedded
with an explicit fuel counter; `fuelExhausted` is a modelling artifact
that never occurs for the fuel used by `cluster_assignment` (the Python
recursion always terminates on finite inputs: every call visits a
previously unvisited cluster).

The external Hungarian-algorithm solver (`munkres.Munkres().compute`) is
not part of this repository; it is taken as a parameter `solver`.
Theorems that depend on its behaviour assume only its documented
interface: one `(row, column)` pair per row of the cost matrix.
-/

namespace Beard

/-- An insertion-ordered dictionary from cluster ids to lists of entities,
the shape of `old_clusters`, `new_clusters`, `claims` and `rejected`. -/
abbrev Clusters (κ α : Type) := List (κ × List α)

/-- Errors a `cluster_assignment` run can finish with: Python `KeyError`,
Python `IndexError`, exhaustion of the traversal fuel (a modelling
artifact, unreachable for the fuel used), or an exception raised by the
caller-supplied similarity function. -/
inductive PyErr (ε : Type) where
  | keyError : PyErr ε
  | indexError : PyErr ε
  | fuelExhausted : PyErr ε
  | user : ε → PyErr ε
deriving DecidableEq, Repr

/-- Convert an `Option` into `Except`, raising `e` on `none`; used to embed
Python's raising dict lookups and list indexing. -/
def ofOption {ε β : Type} (e : PyErr ε) : Option β → Except (PyErr ε) β
  | none => .error e
  | some b => .ok b

/-- Lift the caller-supplied similarity function's own exceptions into
`PyErr.user`; the run performs no handling around the call. -/
def liftUser {ε : Type} : Except ε Int → Except (PyErr ε) Int
  | .ok v => .ok v
  | .error e => .error (.user e)

/-- Python `d[k]` on a dict: the value of key `k` (first occurrence; dict
keys are distinct). -/
def dictLookup {κ α : Type} [DecidableEq κ] : Clusters κ α → κ → Option (List α)
  | [], _ => none
  | (k', v) :: rest, k => if k' = k then some v else dictLookup rest k

/-- Python `d.get(k, [])`. -/
def getD {κ α : Type} [DecidableEq κ] (d : Clusters κ α) (k : κ) : List α :=
  (dictLookup d k).getD []

/-- The multiset (as a list, duplicates kept) of all entities appearing in
the value lists of a dict, in order.  Also used for the Python set
`claims_set = {z for claim_list in claims.values() for z in claim_list}`,
which the source only ever tests membership in. -/
def entitiesOf {κ α : Type} (d : Clusters κ α) : List α :=
  (d.map Prod.snd).flatten

/-- The reverse index `{v: k for k, va in d.iteritems() for v in va}` from
source lines 118-120: the last cluster (in iteration order) whose list
contains `v`, or `none` when no cluster does (Python would then raise
`KeyError` on lookup). -/
def reversedOf {κ α : Type} [DecidableEq α] (d : Clusters κ α) (v : α) : Option κ :=
  d.foldl (fun acc kv => if v ∈ kv.2 then some kv.1 else acc) none

/-- The partition invariant of the spec's data model: value lists of
distinct entries share no entity. -/
def DisjointClusters {κ α : Type} (d : Clusters κ α) : Prop :=
  d.Pairwise (fun p q => ∀ x ∈ p.2, x ∉ q.2)

instance {κ α : Type} [DecidableEq α] (d : Clusters κ α) :
    Decidable (DisjointClusters d) :=
  inferInstanceAs (Decidable (d.Pairwise (fun (p q : κ × List α) => ∀ x ∈ p.2, x ∉ q.2)))

/-- Mutable state of the component discovery: the two current component
sides (`current_old`, `current_new`) and the two visited maps, the latter
embedded as the list of ids marked visited so far, in marking order. -/
structure St (κ : Type) where
  currentOld : List κ
  currentNew : List κ
  oldVisited : List κ
  newVisited : List κ
deriving DecidableEq, Repr

/-- Source lines 100-101: append the current cluster to its side's
component list and mark it visited; `side = true` is the new-clusters
side. -/
def appendMark {κ : Type} (side : Bool) (st : St κ) (c : κ) : St κ :=
  if side then
    { st with currentNew := st.currentNew ++ [c], newVisited := st.newVisited ++ [c] }
  else
    { st with currentOld := st.currentOld ++ [c], oldVisited := st.oldVisited ++ [c] }

/-- The recursive `graph_traversal` of source lines 94-109, with the
four swapped-role argument pairs folded into the flag `side` (`true` when
`current_cluster` is a new cluster).  The fuel argument only bounds the
recursion depth; each call visits a previously unvisited cluster, so the
fuel chosen by `cluster_assignment` never runs out. -/
def traverse {κ α ε : Type} [DecidableEq κ] [DecidableEq α]
    (old new : Clusters κ α) : Nat → Bool → St κ → κ → Except (PyErr ε) (St κ)
  | 0, _, _, _ => .error .fuelExhausted
  | fuel + 1, side, st, c =>
    let st1 := appendMark side st c
    match (if side then dictLookup new c else dictLookup old c) with
    | none => .error .keyError
    | some contents =>
      contents.foldlM (fun st2 sig =>
        match (if side then reversedOf old sig else reversedOf new sig) with
        | none => .error .keyError
        | some owner =>
          if (if side then owner ∈ st2.oldVisited else owner ∈ st2.newVisited) then
            .ok st2
          else
            traverse old new fuel (!side) st2 owner) st1

/-- Fuel that provably suffices for every traversal started by
`cluster_assignment`: one unit per cluster of either side, plus one. -/
def fuelOf {κ α : Type} (old new : Clusters κ α) : Nat :=
  old.length + new.length + 1

/-- One iteration of the discovery part of the main loop (source lines
135-145): if the new cluster `k` with contents `n` is unvisited, mark it,
seed the component with it and dig from each of its entities.  Returns
the discovered `(current_old, current_new)` component together with the
updated visited lists; a visited `k` yields an empty component. -/
def discoverComponent {κ α ε : Type} [DecidableEq κ] [DecidableEq α]
    (old new : Clusters κ α) (ov nv : List κ) (k : κ) (n : List α) :
    Except (PyErr ε) (List κ × List κ × List κ × List κ) :=
  if k ∈ nv then .ok ([], [], ov, nv)
  else do
    let st0 : St κ := ⟨[], [k], ov, nv ++ [k]⟩
    let st ← n.foldlM (fun st2 sig =>
      match reversedOf old sig with
      | none => .error .keyError
      | some owner =>
        if owner ∈ st2.oldVisited then .ok st2
        else traverse old new (fuelOf old new) false st2 owner) st0
    .ok (st.currentOld, st.currentNew, st.oldVisited, st.newVisited)

/-- Sequential effectful map over `Except`, the shape of the Python
`for` loops that build one matrix row after another: the first failing
element's error is the loop's error. -/
def mapE {A B E : Type} (f : A → Except E B) : List A → Except E (List B)
  | [] => .ok []
  | a :: as => do
    let b ← f a
    let bs ← mapE f as
    .ok (b :: bs)

/-- One row of the cost matrix (source lines 154-164): the similarity of
the new cluster's contents `nl` against each old cluster of the component
(columns `0..n-1`), then `m` artificial-cluster entries
`similarity_function(new_clusters[new], [], [], [])`. -/
def buildRow {κ α ε : Type} [DecidableEq κ]
    (old claims rejected : Clusters κ α)
    (simFn : List α → List α → List α → List α → Except ε Int)
    (co : List κ) (m : Nat) (nl : List α) : Except (PyErr ε) (List Int) := do
  let reals ← mapE (fun g => do
    let ol ← ofOption .keyError (dictLookup old g)
    liftUser (simFn nl ol (getD claims g) (getD rejected g))) co
  let dummies ← mapE (fun _ => liftUser (simFn nl [] [] [])) (List.range m)
  .ok (reals ++ dummies)

/-- The cost matrix of a component (source lines 152-164): one row per
new cluster of the component, in component order. -/
def buildMatrix {κ α ε : Type} [DecidableEq κ]
    (old new claims rejected : Clusters κ α)
    (simFn : List α → List α → List α → List α → Except ε Int)
    (co cn : List κ) : Except (PyErr ε) (List (List Int)) :=
  mapE (fun k => do
    let nl ← ofOption .keyError (dictLookup new k)
    buildRow old claims rejected simFn co cn.length nl) cn

/-- Python `assigned[k].append(s)`: extend the value list of key `k`
in place; `KeyError` when `k` is absent. -/
def appendAt {κ α ε : Type} [DecidableEq κ] :
    Clusters κ α → κ → α → Except (PyErr ε) (Clusters κ α)
  | [], _, _ => .error .keyError
  | (k', l) :: rest, k, s =>
    if k' = k then .ok ((k', l ++ [s]) :: rest)
    else do
      let r ← appendAt rest k s
      .ok ((k', l) :: r)

/-- Source lines 174-176 and 179-181: `assigned[reversed_old[sig]].append(sig)`,
routing a signature back to the old cluster it currently belongs to. -/
def routeBack {κ α ε : Type} [DecidableEq κ] [DecidableEq α]
    (old assigned : Clusters κ α) (s : α) : Except (PyErr ε) (Clusters κ α) := do
  let g ← ofOption .keyError (reversedOf old s)
  appendAt assigned g s

/-- The per-signature loop of the override resolver (source lines
172-187) over one assigned pair whose column is `col`: claimed signatures
go back to their current old cluster; otherwise, when `col <
len(old_clusters)` (`oldLen` — the source compares against the total
number of old clusters, not the component's), the signature goes to the
proposed old cluster `current_old[col]` unless that cluster rejected it,
in which case it also goes back; remaining signatures accumulate in the
component's `to_new_cluster` list `t`. -/
def resolveSigs {κ α ε : Type} [DecidableEq κ] [DecidableEq α]
    (old rejected : Clusters κ α) (cs : List α) (co : List κ)
    (oldLen col : Nat) :
    List α → Clusters κ α × List α → Except (PyErr ε) (Clusters κ α × List α)
  | [], acc => .ok acc
  | s :: rest, (a, t) =>
    if s ∈ cs then do
      let a' ← routeBack old a s
      resolveSigs old rejected cs co oldLen col rest (a', t)
    else if col < oldLen then do
      let gt ← ofOption .indexError (co.get? col)
      if s ∈ getD rejected gt then do
        let a' ← routeBack old a s
        resolveSigs old rejected cs co oldLen col rest (a', t)
      else do
        let a' ← appendAt a gt s
        resolveSigs old rejected cs co oldLen col rest (a', t)
    else
      resolveSigs old rejected cs co oldLen col rest (a, t ++ [s])

/-- The loop over the solver's output pairs (source lines 170-189): each
pair `(i, col)` resolves the signatures of the component's `i`-th new
cluster, and a non-empty leftover list is appended to `unassigned`. -/
def resolvePairs {κ α ε : Type} [DecidableEq κ] [DecidableEq α]
    (old new rejected : Clusters κ α) (cs : List α) (co cn : List κ) :
    List (Nat × Nat) → Clusters κ α × List (List α) →
    Except (PyErr ε) (Clusters κ α × List (List α))
  | [], acc => .ok acc
  | (i, col) :: rest, (a, u) => do
    let k ← ofOption .indexError (cn.get? i)
    let nl ← ofOption .keyError (dictLookup new k)
    let (a', t) ← resolveSigs old rejected cs co old.length col nl (a, [])
    resolvePairs old new rejected cs co cn rest (a', if t.isEmpty then u else u ++ [t])

/-- Solve and resolve one non-empty component (source lines 149-189):
build its cost matrix, run the external solver on it, then route every
signature of the component. -/
def processComponent {κ α ε : Type} [DecidableEq κ] [DecidableEq α]
    (old new claims rejected : Clusters κ α)
    (simFn : List α → List α → List α → List α → Except ε Int)
    (solver : List (List Int) → List (Nat × Nat))
    (co cn : List κ) (acc : Clusters κ α × List (List α)) :
    Except (PyErr ε) (Clusters κ α × List (List α)) := do
  let M ← buildMatrix old new claims rejected simFn co cn
  resolvePairs old new rejected (entitiesOf claims) co cn (solver M) acc

/-- The main loop of `cluster_assignment` (source lines 134-192): iterate
over the new clusters in dict order, discover the component of each
unvisited one, and process every non-empty component as it is found. -/
def mainLoop {κ α ε : Type} [DecidableEq κ] [DecidableEq α]
    (old new claims rejected : Clusters κ α)
    (simFn : List α → List α → List α → List α → Except ε Int)
    (solver : List (List Int) → List (Nat × Nat)) :
    List (κ × List α) → List κ → List κ → Clusters κ α × List (List α) →
    Except (PyErr ε) (Clusters κ α × List (List α))
  | [], _, _, acc => .ok acc
  | (k, n) :: rest, ov, nv, acc => do
    let (co, cn, ov', nv') ← discoverComponent old new ov nv k n
    let acc' ←
      if cn.isEmpty then .ok acc
      else processComponent old new claims rejected simFn solver co cn acc
    mainLoop old new claims rejected simFn solver rest ov' nv' acc'

/-- The embedded `cluster_assignment` (source lines 19-194).  `assigned`
starts as one empty list per old cluster id (line 111), `unassigned`
starts empty (line 112); the result is the pair of both accumulators. -/
def cluster_assignment {κ α ε : Type} [DecidableEq κ] [DecidableEq α]
    (old new : Clusters κ α)
    (simFn : List α → List α → List α → List α → Except ε Int)
    (claims rejected : Clusters κ α)
    (solver : List (List Int) → List (Nat × Nat)) :
    Except (PyErr ε) (Clusters κ α × List (List α)) :=
  mainLoop old new claims rejected simFn solver new [] []
    (old.map (fun kv => (kv.1, ([] : List α))), [])

/-- The decomposition phase on its own: the list of
`(current_old, current_new)` components in discovery order, exactly as
the main loop discovers them (empty components of already-visited keys
are skipped, mirroring the `if current_new:` guard of line 149). -/
def componentsLoop {κ α ε : Type} [DecidableEq κ] [DecidableEq α]
    (old new : Clusters κ α) :
    List (κ × List α) → List κ → List κ →
    Except (PyErr ε) (List (List κ × List κ))
  | [], _, _ => .ok []
  | (k, n) :: rest, ov, nv => do
    let (co, cn, ov', nv') ← discoverComponent old new ov nv k n
    let comps ← componentsLoop old new rest ov' nv'
    .ok (if cn.isEmpty then comps else (co, cn) :: comps)

/-- The connected components of the bipartite old/new graph, as
discovered by `cluster_assignment`'s traversal; a pure function of the
two partitions (the traversal never consults costs, claims or
rejections). -/
def componentsOf {κ α ε : Type} [DecidableEq κ] [DecidableEq α]
    (old new : Clusters κ α) : Except (PyErr ε) (List (List κ × List κ)) :=
  componentsLoop old new new [] []

/-- Fold of `processComponent` over a component list; `cluster_assignment`
is this fold over `componentsOf`'s output (proved below). -/
def processList {κ α ε : Type} [DecidableEq κ] [DecidableEq α]
    (old new claims rejected : Clusters κ α)
    (simFn : List α → List α → List α → List α → Except ε Int)
    (solver : List (List Int) → List (Nat × Nat)) :
    List (List κ × List κ) → Clusters κ α × List (List α) →
    Except (PyErr ε) (Clusters κ α × List (List α))
  | [], acc => .ok acc
  | (co, cn) :: rest, acc => do
    let acc' ← processComponent old new claims rejected simFn solver co cn acc
    processList old new claims rejected simFn solver rest acc'

/-- A simple executable stand-in for the external solver, used by
witnesses: each row greedily takes the cheapest still-unused column.
It satisfies the interface assumption (one pair per row, rows in order)
that the theorems below make about `munkres`. -/
def pickCol (row : List Int) (used : List Nat) : Nat :=
  match (List.range row.length).filter (fun j => decide (j ∉ used)) with
  | [] => 0
  | c :: cs => cs.foldl (fun best j =>
      if (row.get? j).getD 0 < (row.get? best).getD 0 then j else best) c

/-- Helper of `greedySolver`: assign rows starting at index `i`. -/
def greedyAux : List (List Int) → List Nat → Nat → List (Nat × Nat)
  | [], _, _ => []
  | row :: rest, used, i =>
    let j := pickCol row used
    (i, j) :: greedyAux rest (j :: used) (i + 1)

/-- Greedy row-by-row assignment solver (see `pickCol`). -/
def greedySolver (M : List (List Int)) : List (Nat × Nat) :=
  greedyAux M [] 0

/-- Invariant relation between a traversal state and any later one: each
component list and its visited list grow by the same suffix (source lines
100-101 always append to both in lock step); every new-side addition is a
key of `new_clusters` whose entities all have an old owner (the traversal
looked each one up without a `KeyError`); every old-side addition is the
old owner of some entity of some new cluster; and marking only unvisited
clusters preserves distinctness of the visited lists. -/
def Ext {κ α : Type} [DecidableEq κ] [DecidableEq α]
    (old new : Clusters κ α) (st st' : St κ) : Prop :=
  (∃ dN, st'.currentNew = st.currentNew ++ dN ∧
     st'.newVisited = st.newVisited ++ dN ∧
     (∀ c ∈ dN, c ∈ new.map Prod.fst) ∧
     (∀ c ∈ dN, ∀ s ∈ getD new c, ∃ g, reversedOf old s = some g)) ∧
  (∃ dO, st'.currentOld = st.currentOld ++ dO ∧
     st'.oldVisited = st.oldVisited ++ dO ∧
     (∀ g ∈ dO, ∃ s, s ∈ entitiesOf new ∧ reversedOf old s = some g)) ∧
  (st.newVisited.Nodup → st'.newVisited.Nodup) ∧
  (st.oldVisited.Nodup → st'.oldVisited.Nodup)

/-- Where the override resolver sends a signature `s` processed under
assigned column `col` (source lines 172-187): a claimed signature goes to
its current old cluster; otherwise, under a column accepted as real
(`col < oldLen`), it goes to its current old cluster when rejected by the
proposed target `co[col]`, else to the proposed target itself. -/
def RouteTgt {κ α : Type} [DecidableEq κ] [DecidableEq α]
    (old rejected : Clusters κ α) (cs : List α) (co : List κ)
    (oldLen col : Nat) (s : α) (g : κ) : Prop :=
  (s ∈ cs ∧ reversedOf old s = some g) ∨
  (s ∉ cs ∧ col < oldLen ∧ ∃ gt, co.get? col = some gt ∧
    ((s ∈ getD rejected gt ∧ reversedOf old s = some g) ∨
     (s ∉ getD rejected gt ∧ g = gt)))

/-! ### Basic lemmas about the monadic plumbing -/

theorem ofOption_ok {ε β : Type} {e : PyErr ε} {o : Option β} {b : β} :
    ofOption e o = .ok b ↔ o = some b := by
  cases o <;> simp [ofOption]

theorem ofOption_error {ε β : Type} {e e' : PyErr ε} {o : Option β} :
    ofOption e o = .error e' ↔ o = none ∧ e = e' := by
  cases o <;> simp [ofOption]

theorem liftUser_ok {ε : Type} {x : Except ε Int} {v : Int} :
    liftUser x = .ok v ↔ x = .ok v := by
  cases x <;> simp [liftUser]

theorem liftUser_error {ε : Type} {x : Except ε Int} {e : PyErr ε} :
    liftUser x = .error e ↔ ∃ e0, x = .error e0 ∧ e = .user e0 := by
  cases x <;> simp [liftUser, eq_comm]

theorem exceptBind_ok {E A B : Type} {x : Except E A} {f : A → Except E B} {b : B} :
    (x >>= f) = .ok b ↔ ∃ a, x = .ok a ∧ f a = .ok b := by
  cases x <;> simp [Bind.bind, Except.bind]

theorem exceptBind_error {E A B : Type} {x : Except E A} {f : A → Except E B} {e : E} :
    (x >>= f) = .error e ↔ x = .error e ∨ ∃ a, x = .ok a ∧ f a = .error e := by
  cases x <;> simp [Bind.bind, Except.bind]

theorem exceptPure_ok {E A : Type} {a b : A} :
    (pure a : Except E A) = .ok b ↔ a = b := by
  simp [pure, Except.pure]

/-- Any reflexive-transitive relation preserved by each step of a
monadic fold over `Except` is preserved by the whole fold. -/
theorem foldlM_rel {E S A : Type} (R : S → S → Prop)
    (hrefl : ∀ s, R s s) (htrans : ∀ a b c, R a b → R b c → R a c)
    {g : S → A → Except E S} :
    ∀ (l : List A) (s s' : S), (∀ t a t', a ∈ l → g t a = .ok t' → R t t') →
      l.foldlM g s = .ok s' → R s s' := by
  intro l
  induction l with
  | nil =>
    intro s s' _ h
    simp only [List.foldlM_nil, exceptPure_ok] at h
    exact h ▸ hrefl s
  | cons a as ih =>
    intro s s' hstep h
    simp only [List.foldlM_cons] at h
    rcases exceptBind_ok.mp h with ⟨t, hga, hrest⟩
    exact htrans _ _ _ (hstep s a t (by simp) hga)
      (ih t s' (fun t1 b t2 hb => hstep t1 b t2 (by simp [hb])) hrest)

/-! ### Dictionary and reverse-index lemmas -/

theorem dictLookup_cons {κ α : Type} [DecidableEq κ]
    (k' : κ) (v : List α) (rest : Clusters κ α) (k : κ) :
    dictLookup ((k', v) :: rest) k = if k' = k then some v else dictLookup rest k := rfl

theorem dictLookup_eq_some_mem {κ α : Type} [DecidableEq κ]
    {d : Clusters κ α} {k : κ} {l : List α} (h : dictLookup d k = some l) :
    (k, l) ∈ d := by
  induction d with
  | nil => simp [dictLookup] at h
  | cons p rest ih =>
    obtain ⟨k', v⟩ := p
    rw [dictLookup_cons] at h
    by_cases hk : k' = k
    · rw [if_pos hk] at h
      injection h with h
      subst hk
      subst h
      exact List.mem_cons_self _ _
    · rw [if_neg hk] at h
      exact List.mem_cons_of_mem _ (ih h)

theorem dictLookup_isSome_of_mem {κ α : Type} [DecidableEq κ]
    {d : Clusters κ α} {k : κ} (h : k ∈ d.map Prod.fst) :
    ∃ l, dictLookup d k = some l := by
  induction d with
  | nil => simp at h
  | cons p rest ih =>
    obtain ⟨k', v⟩ := p
    rw [dictLookup_cons]
    by_cases hk : k' = k
    · exact ⟨v, by rw [if_pos hk]⟩
    · rw [if_neg hk]
      apply ih
      simp only [List.map_cons, List.mem_cons] at h
      rcases h with h | h
      · exact absurd h.symm hk
      · exact h

theorem dictLookup_mem_keys {κ α : Type} [DecidableEq κ]
    {d : Clusters κ α} {k : κ} {l : List α} (h : dictLookup d k = some l) :
    k ∈ d.map Prod.fst := by
  have := dictLookup_eq_some_mem h
  exact List.mem_map.mpr ⟨(k, l), this, rfl⟩

theorem dictLookup_of_nodup {κ α : Type} [DecidableEq κ]
    {d : Clusters κ α} (hn : (d.map Prod.fst).Nodup)
    {k : κ} {l : List α} (h : (k, l) ∈ d) : dictLookup d k = some l := by
  induction d with
  | nil => simp at h
  | cons p rest ih =>
    simp only [List.map_cons, List.nodup_cons] at hn
    rw [show dictLookup (p :: rest) k = if p.1 = k then some p.2 else dictLookup rest k
      from rfl]
    rcases List.mem_cons.mp h with h | h
    · simp [← h]
    · have hk : p.1 ≠ k := by
        intro he
        exact hn.1 (he ▸ List.mem_map.mpr ⟨(k, l), h, rfl⟩)
      rw [if_neg hk]
      exact ih hn.2 h

theorem mem_entitiesOf {κ α : Type} {d : Clusters κ α} {x : α} :
    x ∈ entitiesOf d ↔ ∃ kv ∈ d, x ∈ kv.2 := by
  simp only [entitiesOf, List.mem_flatten, List.mem_map]
  constructor
  · rintro ⟨l, ⟨kv, hkv, rfl⟩, hx⟩
    exact ⟨kv, hkv, hx⟩
  · rintro ⟨kv, hkv, hx⟩
    exact ⟨kv.2, ⟨kv, hkv, rfl⟩, hx⟩

theorem reversedOf_aux_const {κ α : Type} [DecidableEq α]
    {d : Clusters κ α} {v : α} :
    ∀ acc : Option κ, (∀ kv ∈ d, v ∉ kv.2) →
      d.foldl (fun acc kv => if v ∈ kv.2 then some kv.1 else acc) acc = acc := by
  induction d with
  | nil => intro acc _; rfl
  | cons p rest ih =>
    intro acc h
    rw [List.foldl_cons, if_neg (h p (by simp))]
    exact ih _ (fun kv hkv => h kv (by simp [hkv]))

theorem reversedOf_aux_isSome {κ α : Type} [DecidableEq α]
    {d : Clusters κ α} {v : α} :
    ∀ k0 : κ, ∃ k,
      d.foldl (fun acc kv => if v ∈ kv.2 then some kv.1 else acc) (some k0) = some k := by
  induction d with
  | nil => exact fun k0 => ⟨k0, rfl⟩
  | cons p rest ih =>
    intro k0
    rw [List.foldl_cons]
    by_cases hv : v ∈ p.2
    · rw [if_pos hv]
      exact ih p.1
    · rw [if_neg hv]
      exact ih k0

theorem reversedOf_aux_some {κ α : Type} [DecidableEq α]
    {d : Clusters κ α} {v : α} {k : κ} :
    ∀ acc : Option κ,
      d.foldl (fun acc kv => if v ∈ kv.2 then some kv.1 else acc) acc = some k →
      (∃ l, (k, l) ∈ d ∧ v ∈ l) ∨ acc = some k := by
  induction d with
  | nil => intro acc h; exact Or.inr h
  | cons p rest ih =>
    intro acc h
    rw [List.foldl_cons] at h
    by_cases hv : v ∈ p.2
    · rw [if_pos hv] at h
      rcases ih _ h with ⟨l, hl, hvl⟩ | h'
      · exact Or.inl ⟨l, by simp [hl], hvl⟩
      · simp at h'
        exact Or.inl ⟨p.2, by simp [← h'], hv⟩
    · rw [if_neg hv] at h
      rcases ih _ h with ⟨l, hl, hvl⟩ | h'
      · exact Or.inl ⟨l, by simp [hl], hvl⟩
      · exact Or.inr h'

theorem reversedOf_some {κ α : Type} [DecidableEq α]
    {d : Clusters κ α} {v : α} {k : κ} (h : reversedOf d v = some k) :
    ∃ l, (k, l) ∈ d ∧ v ∈ l := by
  rcases reversedOf_aux_some _ h with h' | h'
  · exact h'
  · simp at h'

theorem reversedOf_mem_keys {κ α : Type} [DecidableEq α]
    {d : Clusters κ α} {v : α} {k : κ} (h : reversedOf d v = some k) :
    k ∈ d.map Prod.fst := by
  rcases reversedOf_some h with ⟨l, hl, _⟩
  exact List.mem_map.mpr ⟨(k, l), hl, rfl⟩

theorem reversedOf_isSome_of_mem {κ α : Type} [DecidableEq α]
    {d : Clusters κ α} {v : α} (h : v ∈ entitiesOf d) :
    ∃ k, reversedOf d v = some k := by
  induction d with
  | nil => simp [entitiesOf] at h
  | cons p rest ih =>
    unfold reversedOf
    rw [List.foldl_cons]
    by_cases hv : v ∈ p.2
    · rw [if_pos hv]
      exact reversedOf_aux_isSome p.1
    · rw [if_neg hv]
      have h' : v ∈ entitiesOf rest := by
        rcases mem_entitiesOf.mp h with ⟨kv, hkv, hvkv⟩
        rcases List.mem_cons.mp hkv with rfl | hkv'
        · exact absurd hvkv hv
        · exact mem_entitiesOf.mpr ⟨kv, hkv', hvkv⟩
      simpa [reversedOf] using ih h'

theorem appendAt_cons {κ α ε : Type} [DecidableEq κ]
    (k' : κ) (l : List α) (rest : Clusters κ α) (k : κ) (s : α) :
    (appendAt ((k', l) :: rest) k s : Except (PyErr ε) (Clusters κ α)) =
      if k' = k then .ok ((k', l ++ [s]) :: rest)
      else (appendAt rest k s : Except (PyErr ε) (Clusters κ α)) >>=
        (fun r => .ok ((k', l) :: r)) := rfl

theorem appendAt_keys {κ α ε : Type} [DecidableEq κ] {k : κ} {s : α} :
    ∀ {a a' : Clusters κ α},
      (appendAt a k s : Except (PyErr ε) _) = .ok a' →
      a'.map Prod.fst = a.map Prod.fst := by
  intro a
  induction a with
  | nil => intro a' h; simp [appendAt] at h
  | cons p rest ih =>
    intro a' h
    obtain ⟨k', l⟩ := p
    rw [appendAt_cons] at h
    by_cases hk : k' = k
    · rw [if_pos hk] at h
      injection h with h
      subst h
      simp
    · rw [if_neg hk] at h
      rcases exceptBind_ok.mp h with ⟨r, hr, hok⟩
      injection hok with hok
      subst hok
      simp [ih hr]

theorem appendAt_lookup_ne {κ α ε : Type} [DecidableEq κ] {k : κ} {s : α} {g : κ}
    (hg : g ≠ k) :
    ∀ {a a' : Clusters κ α},
      (appendAt a k s : Except (PyErr ε) _) = .ok a' →
      dictLookup a' g = dictLookup a g := by
  intro a
  induction a with
  | nil => intro a' h; simp [appendAt] at h
  | cons p rest ih =>
    intro a' h
    obtain ⟨k', l⟩ := p
    rw [appendAt_cons] at h
    by_cases hk : k' = k
    · rw [if_pos hk] at h
      injection h with h
      subst h
      rw [dictLookup_cons, dictLookup_cons, if_neg (by rw [hk]; exact fun e => hg e.symm),
        if_neg (by rw [hk]; exact fun e => hg e.symm)]
    · rw [if_neg hk] at h
      rcases exceptBind_ok.mp h with ⟨r, hr, hok⟩
      injection hok with hok
      subst hok
      rw [dictLookup_cons, dictLookup_cons]
      by_cases hgk : k' = g
      · rw [if_pos hgk, if_pos hgk]
      · rw [if_neg hgk, if_neg hgk]
        exact ih hr

theorem appendAt_lookup_self {κ α ε : Type} [DecidableEq κ] {k : κ} {s : α} :
    ∀ {a a' : Clusters κ α},
      (appendAt a k s : Except (PyErr ε) _) = .ok a' →
      ∃ l, dictLookup a k = some l ∧ dictLookup a' k = some (l ++ [s]) := by
  intro a
  induction a with
  | nil => intro a' h; simp [appendAt] at h
  | cons p rest ih =>
    intro a' h
    obtain ⟨k', l⟩ := p
    rw [appendAt_cons] at h
    by_cases hk : k' = k
    · rw [if_pos hk] at h
      injection h with h
      subst h
      exact ⟨l, by rw [dictLookup_cons, if_pos hk], by rw [dictLookup_cons, if_pos hk]⟩
    · rw [if_neg hk] at h
      rcases exceptBind_ok.mp h with ⟨r, hr, hok⟩
      injection hok with hok
      subst hok
      rcases ih hr with ⟨l0, h1, h2⟩
      exact ⟨l0, by rw [dictLookup_cons, if_neg hk]; exact h1,
        by rw [dictLookup_cons, if_neg hk]; exact h2⟩

theorem appendAt_entities {κ α ε : Type} [DecidableEq κ] {k : κ} {s : α} :
    ∀ {a a' : Clusters κ α},
      (appendAt a k s : Except (PyErr ε) _) = .ok a' →
      (entitiesOf a').Perm (s :: entitiesOf a) := by
  intro a
  induction a with
  | nil => intro a' h; simp [appendAt] at h
  | cons p rest ih =>
    intro a' h
    obtain ⟨k', l⟩ := p
    rw [appendAt_cons] at h
    by_cases hk : k' = k
    · rw [if_pos hk] at h
      injection h with h
      subst h
      simp only [entitiesOf, List.map_cons, List.flatten_cons]
      rw [List.append_assoc]
      exact List.perm_middle.trans (List.Perm.refl _)
    · rw [if_neg hk] at h
      rcases exceptBind_ok.mp h with ⟨r, hr, hok⟩
      injection hok with hok
      subst hok
      simp only [entitiesOf, List.map_cons, List.flatten_cons]
      exact ((ih hr).append_left l).trans List.perm_middle

theorem appendAt_mem_getD {κ α ε : Type} [DecidableEq κ]
    {a a' : Clusters κ α} {k : κ} {s : α}
    (h : (appendAt a k s : Except (PyErr ε) _) = .ok a') {g : κ} {x : α} :
    x ∈ getD a' g ↔ (x ∈ getD a g ∨ (x = s ∧ g = k)) := by
  by_cases hg : g = k
  · subst hg
    rcases appendAt_lookup_self h with ⟨l, h1, h2⟩
    simp [getD, h1, h2, or_comm]
  · rw [getD, appendAt_lookup_ne hg h]
    simp [getD, hg]

theorem reversedOf_of_disjoint {κ α : Type} [DecidableEq α]
    {d : Clusters κ α} (hd : DisjointClusters d)
    {k : κ} {l : List α} {v : α} (hm : (k, l) ∈ d) (hv : v ∈ l) :
    reversedOf d v = some k := by
  induction d with
  | nil => simp at hm
  | cons p rest ih =>
    unfold DisjointClusters at hd
    rw [List.pairwise_cons] at hd
    unfold reversedOf
    rw [List.foldl_cons]
    rcases List.mem_cons.mp hm with h' | h'
    · subst h'
      have hrest : ∀ q ∈ rest, v ∉ q.2 := fun q hq => hd.1 q hq v hv
      rw [reversedOf_aux_const _ hrest]
      simp [hv]
    · have hres : reversedOf rest v = some k := ih hd.2 h'
      unfold reversedOf at hres
      by_cases hv' : v ∈ p.2
      · exact absurd hv (hd.1 _ h' v hv')
      · rw [if_neg hv']
        exact hres

/-! ### Traversal lemmas: component discovery -/

theorem foldlM_forall {E S A : Type} {g : S → A → Except E S} (P : A → Prop)
    (hstep : ∀ t a t', g t a = .ok t' → P a) :
    ∀ (l : List A) (s s' : S), l.foldlM g s = .ok s' → ∀ a ∈ l, P a := by
  intro l
  induction l with
  | nil => intro s s' _ a ha; simp at ha
  | cons a as ih =>
    intro s s' h b hb
    simp only [List.foldlM_cons] at h
    rcases exceptBind_ok.mp h with ⟨t, hga, hrest⟩
    rcases List.mem_cons.mp hb with rfl | hb'
    · exact hstep s b t hga
    · exact ih t s' hrest b hb'

theorem ext_refl {κ α : Type} [DecidableEq κ] [DecidableEq α]
    (old new : Clusters κ α) (st : St κ) : Ext old new st st :=
  ⟨⟨[], by simp, by simp, by simp, by simp⟩,
   ⟨[], by simp, by simp, by simp⟩, id, id⟩

theorem ext_trans {κ α : Type} [DecidableEq κ] [DecidableEq α]
    {old new : Clusters κ α} {s1 s2 s3 : St κ}
    (h12 : Ext old new s1 s2) (h23 : Ext old new s2 s3) : Ext old new s1 s3 := by
  obtain ⟨⟨dN1, hc1, hv1, hk1, ho1⟩, ⟨dO1, hoc1, hov1, hp1⟩, hnn1, hno1⟩ := h12
  obtain ⟨⟨dN2, hc2, hv2, hk2, ho2⟩, ⟨dO2, hoc2, hov2, hp2⟩, hnn2, hno2⟩ := h23
  refine ⟨⟨dN1 ++ dN2, ?_, ?_, ?_, ?_⟩, ⟨dO1 ++ dO2, ?_, ?_, ?_⟩, fun h => hnn2 (hnn1 h),
    fun h => hno2 (hno1 h)⟩
  · rw [hc2, hc1, List.append_assoc]
  · rw [hv2, hv1, List.append_assoc]
  · intro c hc
    rcases List.mem_append.mp hc with h | h
    · exact hk1 c h
    · exact hk2 c h
  · intro c hc
    rcases List.mem_append.mp hc with h | h
    · exact ho1 c h
    · exact ho2 c h
  · rw [hoc2, hoc1, List.append_assoc]
  · rw [hov2, hov1, List.append_assoc]
  · intro g hg
    rcases List.mem_append.mp hg with h | h
    · exact hp1 g h
    · exact hp2 g h

theorem appendMark_new {κ : Type} (st : St κ) (c : κ) :
    appendMark true st c =
      { st with currentNew := st.currentNew ++ [c],
                newVisited := st.newVisited ++ [c] } := rfl

theorem appendMark_old {κ : Type} (st : St κ) (c : κ) :
    appendMark false st c =
      { st with currentOld := st.currentOld ++ [c],
                oldVisited := st.oldVisited ++ [c] } := rfl

theorem traverse_true_eq {κ α ε : Type} [DecidableEq κ] [DecidableEq α]
    (old new : Clusters κ α) (f : Nat) (st : St κ) (c : κ) :
    (traverse old new (f + 1) true st c : Except (PyErr ε) _) =
      match dictLookup new c with
      | none => .error .keyError
      | some contents =>
        contents.foldlM (fun st2 sig =>
          match reversedOf old sig with
          | none => .error .keyError
          | some owner =>
            if owner ∈ st2.oldVisited then .ok st2
            else traverse old new f false st2 owner) (appendMark true st c) := rfl

theorem traverse_false_eq {κ α ε : Type} [DecidableEq κ] [DecidableEq α]
    (old new : Clusters κ α) (f : Nat) (st : St κ) (c : κ) :
    (traverse old new (f + 1) false st c : Except (PyErr ε) _) =
      match dictLookup old c with
      | none => .error .keyError
      | some contents =>
        contents.foldlM (fun st2 sig =>
          match reversedOf new sig with
          | none => .error .keyError
          | some owner =>
            if owner ∈ st2.newVisited then .ok st2
            else traverse old new f true st2 owner) (appendMark false st c) := rfl

theorem digOld_ok {κ α ε : Type} [DecidableEq κ] [DecidableEq α]
    {old new : Clusters κ α} {f : Nat} {t t' : St κ} {sig : α} :
    ((match reversedOf old sig with
      | none => Except.error PyErr.keyError
      | some owner =>
        if owner ∈ t.oldVisited then Except.ok t
        else traverse old new f false t owner) : Except (PyErr ε) (St κ)) = Except.ok t' ↔
    (∃ owner, reversedOf old sig = some owner ∧
      ((owner ∈ t.oldVisited ∧ t' = t) ∨
       (owner ∉ t.oldVisited ∧
        (traverse old new f false t owner : Except (PyErr ε) _) = Except.ok t'))) := by
  cases hrev : reversedOf old sig with
  | none => simp
  | some owner =>
    by_cases hvis : owner ∈ t.oldVisited
    · simp [hvis, eq_comm]
    · simp [hvis]

theorem digNew_ok {κ α ε : Type} [DecidableEq κ] [DecidableEq α]
    {old new : Clusters κ α} {f : Nat} {t t' : St κ} {sig : α} :
    ((match reversedOf new sig with
      | none => Except.error PyErr.keyError
      | some owner =>
        if owner ∈ t.newVisited then Except.ok t
        else traverse old new f true t owner) : Except (PyErr ε) (St κ)) = Except.ok t' ↔
    (∃ owner, reversedOf new sig = some owner ∧
      ((owner ∈ t.newVisited ∧ t' = t) ∨
       (owner ∉ t.newVisited ∧
        (traverse old new f true t owner : Except (PyErr ε) _) = Except.ok t'))) := by
  cases hrev : reversedOf new sig with
  | none => simp
  | some owner =>
    by_cases hvis : owner ∈ t.newVisited
    · simp [hvis, eq_comm]
    · simp [hvis]

/-- The central traversal invariant: a successful `traverse` call extends
the state by the visited clusters, with all the bookkeeping of `Ext`.
The preconditions mirror the call sites: the cluster dug into is
unvisited, is a genuine key of its side, and (old side) was obtained as
the owner of some entity of a new cluster. -/
theorem traverse_ext {κ α ε : Type} [DecidableEq κ] [DecidableEq α]
    {old new : Clusters κ α} :
    ∀ (fuel : Nat) (side : Bool) (st : St κ) (c : κ) (st' : St κ),
      (side = true → c ∉ st.newVisited ∧ c ∈ new.map Prod.fst) →
      (side = false → c ∉ st.oldVisited ∧
        ∃ s, s ∈ entitiesOf new ∧ reversedOf old s = some c) →
      (traverse old new fuel side st c : Except (PyErr ε) _) = .ok st' →
      Ext old new st st' := by
  intro fuel
  induction fuel with
  | zero =>
    intro side st c st' _ _ h
    simp [traverse] at h
  | succ f ih =>
    intro side st c st' hnewPre holdPre h
    cases side with
    | true =>
      obtain ⟨hunvis, hkey⟩ := hnewPre rfl
      rw [traverse_true_eq] at h
      cases hlook : dictLookup new c with
      | none => rw [hlook] at h; simp at h
      | some contents =>
        rw [hlook] at h
        have hstep : ∀ (t : St κ) (sig : α), sig ∈ contents → ∀ (t' : St κ),
            (match reversedOf old sig with
             | none => Except.error PyErr.keyError
             | some owner =>
               if owner ∈ t.oldVisited then Except.ok t
               else (traverse old new f false t owner : Except (PyErr ε) _)) =
              Except.ok t' →
            Ext old new t t' := by
          intro t sig hsig t' hst
          rcases digOld_ok.mp hst with ⟨owner, hrev, ⟨_, rfl⟩ | ⟨hvis, hrec⟩⟩
          · exact ext_refl old new _
          · refine ih false t owner t' (by simp) (fun _ => ⟨hvis, sig, ?_, hrev⟩) hrec
            exact mem_entitiesOf.mpr ⟨(c, contents), dictLookup_eq_some_mem hlook, hsig⟩
        have hfold := foldlM_rel (Ext old new) (ext_refl old new)
          (fun _ _ _ => ext_trans) contents (appendMark true st c) st'
          (fun t a t' ha hg => hstep t a ha t' hg) h
        have hown : ∀ s ∈ contents, ∃ g, reversedOf old s = some g := by
          refine foldlM_forall (fun sig => ∃ g, reversedOf old sig = some g)
            ?_ contents (appendMark true st c) st' h
          intro t sig t' hst
          rcases digOld_ok.mp hst with ⟨owner, hrev, _⟩
          exact ⟨owner, hrev⟩
        obtain ⟨⟨dN, hc2, hv2, hk2, ho2⟩, ⟨dO, hoc2, hov2, hp2⟩, hnn2, hno2⟩ := hfold
        rw [appendMark_new] at hc2 hv2 hoc2 hov2 hnn2 hno2
        refine ⟨⟨c :: dN, ?_, ?_, ?_, ?_⟩, ⟨dO, hoc2, hov2, hp2⟩, ?_, hno2⟩
        · simpa [List.append_assoc] using hc2
        · simpa [List.append_assoc] using hv2
        · intro x hx
          rcases List.mem_cons.mp hx with rfl | hx'
          · exact hkey
          · exact hk2 x hx'
        · intro x hx
          rcases List.mem_cons.mp hx with rfl | hx'
          · intro s hs
            rw [getD, hlook] at hs
            exact hown s hs
          · exact ho2 x hx'
        · intro hnd
          refine hnn2 ?_
          rw [List.nodup_append]
          exact ⟨hnd, List.nodup_singleton c, by simpa using hunvis⟩
    | false =>
      obtain ⟨hunvis, hprov⟩ := holdPre rfl
      rw [traverse_false_eq] at h
      cases hlook : dictLookup old c with
      | none => rw [hlook] at h; simp at h
      | some contents =>
        rw [hlook] at h
        have hstep : ∀ (t : St κ) (sig : α), sig ∈ contents → ∀ (t' : St κ),
            (match reversedOf new sig with
             | none => Except.error PyErr.keyError
             | some owner =>
               if owner ∈ t.newVisited then Except.ok t
               else (traverse old new f true t owner : Except (PyErr ε) _)) =
              Except.ok t' →
            Ext old new t t' := by
          intro t sig _ t' hst
          rcases digNew_ok.mp hst with ⟨owner, hrev, ⟨_, rfl⟩ | ⟨hvis, hrec⟩⟩
          · exact ext_refl old new _
          · exact ih true t owner t'
              (fun _ => ⟨hvis, reversedOf_mem_keys hrev⟩) (by simp) hrec
        have hfold := foldlM_rel (Ext old new) (ext_refl old new)
          (fun _ _ _ => ext_trans) contents (appendMark false st c) st'
          (fun t a t' ha hg => hstep t a ha t' hg) h
        obtain ⟨⟨dN, hc2, hv2, hk2, ho2⟩, ⟨dO, hoc2, hov2, hp2⟩, hnn2, hno2⟩ := hfold
        rw [appendMark_old] at hc2 hv2 hoc2 hov2 hnn2 hno2
        refine ⟨⟨dN, hc2, hv2, hk2, ho2⟩, ⟨c :: dO, ?_, ?_, ?_⟩, hnn2, ?_⟩
        · simpa [List.append_assoc] using hoc2
        · simpa [List.append_assoc] using hov2
        · intro x hx
          rcases List.mem_cons.mp hx with rfl | hx'
          · exact hprov
          · exact hp2 x hx'
        · intro hnd
          refine hno2 ?_
          rw [List.nodup_append]
          exact ⟨hnd, List.nodup_singleton c, by simpa using hunvis⟩

theorem discoverComponent_eq {κ α ε : Type} [DecidableEq κ] [DecidableEq α]
    (old new : Clusters κ α) (ov nv : List κ) (k : κ) (n : List α) :
    (discoverComponent old new ov nv k n : Except (PyErr ε) _) =
      if k ∈ nv then .ok ([], [], ov, nv)
      else
        (n.foldlM (fun st2 sig =>
          match reversedOf old sig with
          | none => Except.error PyErr.keyError
          | some owner =>
            if owner ∈ st2.oldVisited then Except.ok st2
            else traverse old new (fuelOf old new) false st2 owner)
          (⟨[], [k], ov, nv ++ [k]⟩ : St κ)) >>=
          fun st => .ok (st.currentOld, st.currentNew, st.oldVisited, st.newVisited) := rfl

/-- What one discovery step guarantees: visited lists extend exactly by
the discovered component, the seed cluster's entities all have old
owners, every discovered new cluster is a key of `new_clusters` with
fully-owned entities, every discovered old cluster is the owner of some
new entity, and visited lists stay duplicate-free. -/
theorem discoverComponent_spec {κ α ε : Type} [DecidableEq κ] [DecidableEq α]
    {old new : Clusters κ α} {ov nv : List κ} {k : κ} {n : List α}
    {co cn ov' nv' : List κ}
    (hentry : (k, n) ∈ new)
    (h : (discoverComponent old new ov nv k n : Except (PyErr ε) _) =
      .ok (co, cn, ov', nv')) :
    ov' = ov ++ co ∧ nv' = nv ++ cn ∧
    (k ∈ nv → cn = [] ∧ co = []) ∧
    (k ∉ nv → ∃ dN, cn = k :: dN) ∧
    (k ∉ nv → ∀ s ∈ n, ∃ g, reversedOf old s = some g) ∧
    (∀ c ∈ cn, c ∈ new.map Prod.fst) ∧
    (∀ c ∈ cn, c = k ∨ ∀ s ∈ getD new c, ∃ g, reversedOf old s = some g) ∧
    (∀ g ∈ co, ∃ s, s ∈ entitiesOf new ∧ reversedOf old s = some g) ∧
    (nv.Nodup → nv'.Nodup) ∧ (ov.Nodup → ov'.Nodup) ∧
    k ∈ nv' := by
  rw [discoverComponent_eq] at h
  by_cases hv : k ∈ nv
  · rw [if_pos hv] at h
    injection h with h
    injection h with h1 h
    injection h with h2 h
    injection h with h3 h4
    subst h1; subst h2; subst h3; subst h4
    refine ⟨by simp, by simp, fun _ => ⟨rfl, rfl⟩, fun hk => absurd hv hk,
      fun hk => absurd hv hk, by simp, by simp, by simp, id, id, hv⟩
  · rw [if_neg hv] at h
    rcases exceptBind_ok.mp h with ⟨st, hfold, hok⟩
    injection hok with hok
    injection hok with h1 hok
    injection hok with h2 hok
    injection hok with h3 h4
    have hstep : ∀ (t : St κ) (sig : α), sig ∈ n → ∀ (t' : St κ),
        (match reversedOf old sig with
         | none => Except.error PyErr.keyError
         | some owner =>
           if owner ∈ t.oldVisited then Except.ok t
           else (traverse old new (fuelOf old new) false t owner :
             Except (PyErr ε) _)) = Except.ok t' →
        Ext old new t t' := by
      intro t sig hsig t' hst
      rcases digOld_ok.mp hst with ⟨owner, hrev, ⟨_, rfl⟩ | ⟨hvis, hrec⟩⟩
      · exact ext_refl old new _
      · refine traverse_ext (fuelOf old new) false t owner t' (by simp)
          (fun _ => ⟨hvis, sig, ?_, hrev⟩) hrec
        exact mem_entitiesOf.mpr ⟨(k, n), hentry, hsig⟩
    have hfoldExt := foldlM_rel (Ext old new) (ext_refl old new)
      (fun _ _ _ => ext_trans) n (⟨[], [k], ov, nv ++ [k]⟩ : St κ) st
      (fun t a t' ha hg => hstep t a ha t' hg) hfold
    have hown : ∀ s ∈ n, ∃ g, reversedOf old s = some g := by
      refine foldlM_forall (fun sig => ∃ g, reversedOf old sig = some g)
        ?_ n (⟨[], [k], ov, nv ++ [k]⟩ : St κ) st hfold
      intro t sig t' hst
      rcases digOld_ok.mp hst with ⟨owner, hrev, _⟩
      exact ⟨owner, hrev⟩
    obtain ⟨⟨dN, hc2, hv2, hk2, ho2⟩, ⟨dO, hoc2, hov2, hp2⟩, hnn2, hno2⟩ := hfoldExt
    have hkey : k ∈ new.map Prod.fst := List.mem_map.mpr ⟨(k, n), hentry, rfl⟩
    have hco : st.currentOld = dO := by simpa using hoc2
    have hcn : st.currentNew = k :: dN := by simpa using hc2
    have hnv : st.newVisited = nv ++ (k :: dN) := by
      simpa [List.append_assoc] using hv2
    have hov : st.oldVisited = ov ++ dO := by simpa using hov2
    subst h1; subst h2; subst h3; subst h4
    refine ⟨by rw [hov, hco], by rw [hnv, hcn], fun hk => absurd hk hv,
      fun _ => ⟨dN, hcn⟩, fun _ => hown, ?_, ?_, ?_, ?_, ?_, ?_⟩
    · intro c hc
      rw [hcn] at hc
      rcases List.mem_cons.mp hc with rfl | hc'
      · exact hkey
      · exact hk2 c hc'
    · intro c hc
      rw [hcn] at hc
      rcases List.mem_cons.mp hc with rfl | hc'
      · exact Or.inl rfl
      · exact Or.inr (ho2 c hc')
    · intro g hg
      rw [hco] at hg
      exact hp2 g hg
    · intro hnd
      refine hnn2 ?_
      rw [List.nodup_append]
      exact ⟨hnd, List.nodup_singleton k, by simpa using hv⟩
    · intro hnd
      exact hno2 hnd
    · rw [hnv]
      simp

theorem componentsLoop_cons {κ α ε : Type} [DecidableEq κ] [DecidableEq α]
    (old new : Clusters κ α) (k : κ) (n : List α) (rest : List (κ × List α))
    (ov nv : List κ) :
    (componentsLoop old new ((k, n) :: rest) ov nv : Except (PyErr ε) _) =
      (discoverComponent old new ov nv k n >>= fun r =>
        componentsLoop old new rest r.2.2.1 r.2.2.2 >>= fun comps =>
          .ok (if r.2.1.isEmpty then comps else (r.1, r.2.1) :: comps)) := rfl

/-- Cumulative guarantees of the whole decomposition: every item's key is
visited by the end, components are non-empty with new sides made of
genuine keys, entities of discovered clusters have old owners, old sides
come from the reverse index, and visited lists stay duplicate-free. -/
theorem componentsLoop_spec {κ α ε : Type} [DecidableEq κ] [DecidableEq α]
    {old new : Clusters κ α} :
    ∀ (items : List (κ × List α)) (ov nv : List κ) (comps : List (List κ × List κ)),
      (∀ p ∈ items, p ∈ new) →
      (componentsLoop old new items ov nv : Except (PyErr ε) _) = .ok comps →
      (∀ p ∈ items, p.1 ∈ nv ++ (comps.map Prod.snd).flatten) ∧
      (∀ comp ∈ comps, comp.2 ≠ []) ∧
      (∀ comp ∈ comps, ∀ c ∈ comp.2, c ∈ new.map Prod.fst) ∧
      (∀ comp ∈ comps, ∀ c ∈ comp.2,
        (∀ s ∈ getD new c, ∃ g, reversedOf old s = some g) ∨
        (∃ p ∈ items, p.1 = c ∧ ∀ s ∈ p.2, ∃ g, reversedOf old s = some g)) ∧
      (∀ comp ∈ comps, ∀ g ∈ comp.1, ∃ s, s ∈ entitiesOf new ∧
        reversedOf old s = some g) ∧
      (nv.Nodup → (nv ++ (comps.map Prod.snd).flatten).Nodup) ∧
      (ov.Nodup → (ov ++ (comps.map Prod.fst).flatten).Nodup) := by
  intro items
  induction items with
  | nil =>
    intro ov nv comps _ h
    have hc : comps = [] := by
      simp only [componentsLoop] at h
      injection h with h
      exact h.symm
    subst hc
    refine ⟨by simp, by simp, by simp, by simp, by simp, by simp, by simp⟩
  | cons item rest ih =>
    intro ov nv comps hitems h
    obtain ⟨k, n⟩ := item
    rw [componentsLoop_cons] at h
    rcases exceptBind_ok.mp h with ⟨⟨co, cn, ov1, nv1⟩, hdisc, h2⟩
    rcases exceptBind_ok.mp h2 with ⟨comps1, hrest, hok⟩
    injection hok with hok
    obtain ⟨hov1, hnv1, hvisCase, hseedCons, hseedOwn, hcnKeys, hcnOwn, hcoProv,
      hnvNd, hovNd, hkMem⟩ :=
      discoverComponent_spec (hitems (k, n) (by simp)) hdisc
    obtain ⟨ihMem, ihNe, ihKeys, ihOwn, ihProv, ihNvNd, ihOvNd⟩ :=
      ih ov1 nv1 comps1 (fun p hp => hitems p (by simp [hp])) hrest
    by_cases hcne : cn.isEmpty
    · have hcn : cn = [] := List.isEmpty_iff.mp hcne
      subst hcn
      have hok' : comps1 = comps := by simpa using hok
      subst hok'
      have hco : co = [] := by
        by_cases hkv : k ∈ nv
        · exact (hvisCase hkv).2
        · rcases hseedCons hkv with ⟨dN, hdN⟩
          simp at hdN
      subst hco
      simp only [List.append_nil] at hnv1 hov1
      rw [hnv1] at ihMem ihNvNd
      rw [hnv1] at hkMem
      rw [hov1] at ihOvNd
      refine ⟨?_, ihNe, ihKeys, ?_, ihProv, ihNvNd, ihOvNd⟩
      · intro p hp
        rcases List.mem_cons.mp hp with hpk | hp'
        · rw [hpk]
          have hmem : k ∈ nv := by
            by_cases hkv : k ∈ nv
            · exact hkv
            · rcases hseedCons hkv with ⟨dN, hdN⟩
              simp at hdN
          simp [hmem]
        · exact ihMem p hp'
      · intro comp hcomp c hc
        rcases ihOwn comp hcomp c hc with h' | ⟨p, hp, hpc, hpo⟩
        · exact Or.inl h'
        · exact Or.inr ⟨p, by simp [hp], hpc, hpo⟩
    · rw [if_neg hcne] at hok
      subst hok
      have hknv : k ∉ nv := by
        intro hkv
        exact hcne (by simp [(hvisCase hkv).1])
      subst hnv1
      subst hov1
      refine ⟨?_, ?_, ?_, ?_, ?_, ?_, ?_⟩
      · intro p hp
        rcases List.mem_cons.mp hp with hpk | hp'
        · rw [hpk]
          have hmem : k ∈ nv ++ cn := hkMem
          simp only [List.map_cons, List.flatten_cons, ← List.append_assoc]
          exact List.mem_append_left _ hmem
        · have := ihMem p hp'
          simpa [List.append_assoc] using this
      · intro comp hcomp
        rcases List.mem_cons.mp hcomp with rfl | hcomp'
        · intro hemp
          have hcas : cn = [] := by simpa using hemp
          exact hcne (by simp [hcas])
        · exact ihNe comp hcomp'
      · intro comp hcomp c hc
        rcases List.mem_cons.mp hcomp with rfl | hcomp'
        · exact hcnKeys c hc
        · exact ihKeys comp hcomp' c hc
      · intro comp hcomp c hc
        rcases List.mem_cons.mp hcomp with rfl | hcomp'
        · rcases hcnOwn c hc with rfl | h'
          · exact Or.inr ⟨(c, n), by simp, rfl, hseedOwn hknv⟩
          · exact Or.inl h'
        · rcases ihOwn comp hcomp' c hc with h' | ⟨p, hp, hpc, hpo⟩
          · exact Or.inl h'
          · exact Or.inr ⟨p, by simp [hp], hpc, hpo⟩
      · intro comp hcomp g hg
        rcases List.mem_cons.mp hcomp with rfl | hcomp'
        · exact hcoProv g hg
        · exact ihProv comp hcomp' g hg
      · intro hnd
        have := ihNvNd (hnvNd hnd)
        simpa [List.append_assoc] using this
      · intro hnd
        have := ihOvNd (hovNd hnd)
        simpa [List.append_assoc] using this

/-- `cluster_assignment`'s interleaved main loop equals the phase-split
presentation: discover all components first, then fold the
solve-and-resolve step over them.  (The discovery is independent of the
accumulators, and the processing never touches the visited lists.) -/
theorem mainLoop_eq_processList {κ α ε : Type} [DecidableEq κ] [DecidableEq α]
    {old new claims rejected : Clusters κ α}
    {simFn : List α → List α → List α → List α → Except ε Int}
    {solver : List (List Int) → List (Nat × Nat)} :
    ∀ (items : List (κ × List α)) (ov nv : List κ)
      (acc res : Clusters κ α × List (List α)),
      mainLoop old new claims rejected simFn solver items ov nv acc = .ok res →
      ∃ comps, (componentsLoop old new items ov nv : Except (PyErr ε) _) = .ok comps ∧
        processList old new claims rejected simFn solver comps acc = .ok res := by
  intro items
  induction items with
  | nil =>
    intro ov nv acc res h
    simp only [mainLoop] at h
    injection h with h
    subst h
    exact ⟨[], rfl, rfl⟩
  | cons item rest ih =>
    intro ov nv acc res h
    obtain ⟨k, n⟩ := item
    simp only [mainLoop] at h
    rcases exceptBind_ok.mp h with ⟨r, hdisc, h2⟩
    obtain ⟨co, cn, ov1, nv1⟩ := r
    dsimp only at h2
    rw [componentsLoop_cons]
    by_cases hcne : cn.isEmpty
    · rw [if_pos hcne] at h2
      rcases exceptBind_ok.mp h2 with ⟨acc2, hacc2, hrest⟩
      injection hacc2 with hacc2
      subst hacc2
      rcases ih ov1 nv1 acc res hrest with ⟨comps1, hcomps1, hproc1⟩
      refine ⟨comps1, ?_, hproc1⟩
      rw [exceptBind_ok]
      refine ⟨(co, cn, ov1, nv1), hdisc, ?_⟩
      rw [exceptBind_ok]
      refine ⟨comps1, hcomps1, ?_⟩
      dsimp only
      rw [if_pos hcne]
    · rw [if_neg hcne] at h2
      rcases exceptBind_ok.mp h2 with ⟨acc2, hstep, hrest⟩
      rcases ih ov1 nv1 acc2 res hrest with ⟨comps1, hcomps1, hproc1⟩
      refine ⟨(co, cn) :: comps1, ?_, ?_⟩
      · rw [exceptBind_ok]
        refine ⟨(co, cn, ov1, nv1), hdisc, ?_⟩
        rw [exceptBind_ok]
        refine ⟨comps1, hcomps1, ?_⟩
        dsimp only
        rw [if_neg hcne]
      · show (processComponent old new claims rejected simFn solver co cn acc >>=
          fun acc3 => processList old new claims rejected simFn solver comps1 acc3) = .ok res
        exact exceptBind_ok.mpr ⟨acc2, hstep, hproc1⟩

/-! ### Override-resolver lemmas -/

theorem routeBack_eq {κ α ε : Type} [DecidableEq κ] [DecidableEq α]
    (old a : Clusters κ α) (s : α) :
    (routeBack old a s : Except (PyErr ε) _) =
      (ofOption .keyError (reversedOf old s) >>= fun g => appendAt a g s) := rfl

theorem routeBack_ok {κ α ε : Type} [DecidableEq κ] [DecidableEq α]
    {old a a' : Clusters κ α} {s : α} :
    (routeBack old a s : Except (PyErr ε) _) = .ok a' ↔
      ∃ g, reversedOf old s = some g ∧
        (appendAt a g s : Except (PyErr ε) _) = .ok a' := by
  rw [routeBack_eq]
  rw [exceptBind_ok]
  constructor
  · rintro ⟨g, hg, happ⟩
    exact ⟨g, ofOption_ok.mp hg, happ⟩
  · rintro ⟨g, hg, happ⟩
    exact ⟨g, ofOption_ok.mpr hg, happ⟩

theorem resolveSigs_cons {κ α ε : Type} [DecidableEq κ] [DecidableEq α]
    (old rejected : Clusters κ α) (cs : List α) (co : List κ)
    (oldLen col : Nat) (s : α) (rest : List α) (a : Clusters κ α) (t : List α) :
    (resolveSigs old rejected cs co oldLen col (s :: rest) (a, t) :
      Except (PyErr ε) _) =
      if s ∈ cs then
        (routeBack old a s >>= fun a' =>
          resolveSigs old rejected cs co oldLen col rest (a', t))
      else if col < oldLen then
        (ofOption .indexError (co.get? col) >>= fun gt =>
          if s ∈ getD rejected gt then
            (routeBack old a s >>= fun a' =>
              resolveSigs old rejected cs co oldLen col rest (a', t))
          else
            (appendAt a gt s >>= fun a' =>
              resolveSigs old rejected cs co oldLen col rest (a', t)))
      else
        resolveSigs old rejected cs co oldLen col rest (a, t ++ [s]) := rfl

/-- Inversion principle for one resolver step over a signature. -/
theorem resolveSigs_cons_ok {κ α ε : Type} [DecidableEq κ] [DecidableEq α]
    {old rejected : Clusters κ α} {cs : List α} {co : List κ}
    {oldLen col : Nat} {s : α} {rest : List α} {a : Clusters κ α} {t : List α}
    {r : Clusters κ α × List α} :
    (resolveSigs old rejected cs co oldLen col (s :: rest) (a, t) :
      Except (PyErr ε) _) = .ok r ↔
    ((s ∈ cs ∧ ∃ g a', reversedOf old s = some g ∧
        (appendAt a g s : Except (PyErr ε) _) = .ok a' ∧
        (resolveSigs old rejected cs co oldLen col rest (a', t) :
          Except (PyErr ε) _) = .ok r) ∨
     (s ∉ cs ∧ col < oldLen ∧ ∃ gt, co.get? col = some gt ∧
        ((s ∈ getD rejected gt ∧ ∃ g a', reversedOf old s = some g ∧
            (appendAt a g s : Except (PyErr ε) _) = .ok a' ∧
            (resolveSigs old rejected cs co oldLen col rest (a', t) :
              Except (PyErr ε) _) = .ok r) ∨
         (s ∉ getD rejected gt ∧ ∃ a',
            (appendAt a gt s : Except (PyErr ε) _) = .ok a' ∧
            (resolveSigs old rejected cs co oldLen col rest (a', t) :
              Except (PyErr ε) _) = .ok r))) ∨
     (s ∉ cs ∧ ¬ col < oldLen ∧
        (resolveSigs old rejected cs co oldLen col rest (a, t ++ [s]) :
          Except (PyErr ε) _) = .ok r)) := by
  rw [resolveSigs_cons]
  by_cases hcs : s ∈ cs
  · rw [if_pos hcs]
    constructor
    · intro h
      rcases exceptBind_ok.mp h with ⟨a', hr, hrec⟩
      rcases routeBack_ok.mp hr with ⟨g, hg, happ⟩
      exact Or.inl ⟨hcs, g, a', hg, happ, hrec⟩
    · rintro (⟨_, g, a', hg, happ, hrec⟩ | ⟨hns, _⟩ | ⟨hns, _⟩)
      · exact exceptBind_ok.mpr ⟨a', routeBack_ok.mpr ⟨g, hg, happ⟩, hrec⟩
      · exact absurd hcs hns
      · exact absurd hcs hns
  · rw [if_neg hcs]
    by_cases hcol : col < oldLen
    · rw [if_pos hcol]
      cases hget : co.get? col with
      | none =>
        constructor
        · intro h
          rcases exceptBind_ok.mp h with ⟨gt, hgt, _⟩
          rw [ofOption_ok] at hgt
          cases hgt
        · rintro (⟨hs, _⟩ | ⟨_, _, gt, hgt, _⟩ | ⟨_, hncol, _⟩)
          · exact absurd hs hcs
          · cases hgt
          · exact absurd hcol hncol
      | some gt =>
        by_cases hrej : s ∈ getD rejected gt
        · constructor
          · intro h
            rcases exceptBind_ok.mp h with ⟨gt', hgt', ha⟩
            rw [ofOption_ok] at hgt'
            injection hgt' with hgt'
            subst hgt'
            rw [if_pos hrej] at ha
            rcases exceptBind_ok.mp ha with ⟨a', hr, hrec⟩
            rcases routeBack_ok.mp hr with ⟨g, hg, happ⟩
            exact Or.inr (Or.inl ⟨hcs, hcol, gt, rfl,
              Or.inl ⟨hrej, g, a', hg, happ, hrec⟩⟩)
          · rintro (⟨hs, _⟩ | ⟨_, _, gt', hgt', hbr⟩ | ⟨_, hncol, _⟩)
            · exact absurd hs hcs
            · injection hgt' with hgt'
              subst hgt'
              rcases hbr with ⟨_, g, a', hg, happ, hrec⟩ | ⟨hnrej, _⟩
              · refine exceptBind_ok.mpr ⟨gt, ofOption_ok.mpr rfl, ?_⟩
                rw [if_pos hrej]
                exact exceptBind_ok.mpr ⟨a', routeBack_ok.mpr ⟨g, hg, happ⟩, hrec⟩
              · exact absurd hrej hnrej
            · exact absurd hcol hncol
        · constructor
          · intro h
            rcases exceptBind_ok.mp h with ⟨gt', hgt', ha⟩
            rw [ofOption_ok] at hgt'
            injection hgt' with hgt'
            subst hgt'
            rw [if_neg hrej] at ha
            rcases exceptBind_ok.mp ha with ⟨a', happ, hrec⟩
            exact Or.inr (Or.inl ⟨hcs, hcol, gt, rfl,
              Or.inr ⟨hrej, a', happ, hrec⟩⟩)
          · rintro (⟨hs, _⟩ | ⟨_, _, gt', hgt', hbr⟩ | ⟨_, hncol, _⟩)
            · exact absurd hs hcs
            · injection hgt' with hgt'
              subst hgt'
              rcases hbr with ⟨hrej', _⟩ | ⟨_, a', happ, hrec⟩
              · exact absurd hrej' hrej
              · refine exceptBind_ok.mpr ⟨gt, ofOption_ok.mpr rfl, ?_⟩
                rw [if_neg hrej]
                exact exceptBind_ok.mpr ⟨a', happ, hrec⟩
            · exact absurd hcol hncol
    · rw [if_neg hcol]
      constructor
      · intro h
        exact Or.inr (Or.inr ⟨hcs, hcol, h⟩)
      · rintro (⟨hs, _⟩ | ⟨_, hcol', _⟩ | ⟨_, _, h⟩)
        · exact absurd hs hcs
        · exact absurd hcol' hcol
        · exact h

theorem resolveSigs_nil {κ α ε : Type} [DecidableEq κ] [DecidableEq α]
    {old rejected : Clusters κ α} {cs : List α} {co : List κ}
    {oldLen col : Nat} {acc r : Clusters κ α × List α} :
    (resolveSigs old rejected cs co oldLen col [] acc : Except (PyErr ε) _) = .ok r ↔
      r = acc := by
  show (Except.ok acc : Except (PyErr ε) _) = .ok r ↔ r = acc
  constructor
  · intro h; injection h with h; exact h.symm
  · intro h; rw [h]

theorem resolveSigs_keys {κ α ε : Type} [DecidableEq κ] [DecidableEq α]
    {old rejected : Clusters κ α} {cs : List α} {co : List κ} {oldLen col : Nat} :
    ∀ (sigs : List α) (a : Clusters κ α) (t : List α) (a' : Clusters κ α) (t' : List α),
      (resolveSigs old rejected cs co oldLen col sigs (a, t) :
        Except (PyErr ε) _) = .ok (a', t') →
      a'.map Prod.fst = a.map Prod.fst := by
  intro sigs
  induction sigs with
  | nil =>
    intro a t a' t' h
    obtain ⟨h1, h2⟩ := Prod.mk.injEq .. ▸ (resolveSigs_nil.mp h)
    rw [h1]
  | cons s rest ih =>
    intro a t a' t' h
    rcases resolveSigs_cons_ok.mp h with
      ⟨_, g, a1, _, happ, hrec⟩ |
      ⟨_, _, gt, _, ⟨_, g, a1, _, happ, hrec⟩ | ⟨_, a1, happ, hrec⟩⟩ |
      ⟨_, _, hrec⟩
    · rw [ih _ _ _ _ hrec, appendAt_keys happ]
    · rw [ih _ _ _ _ hrec, appendAt_keys happ]
    · rw [ih _ _ _ _ hrec, appendAt_keys happ]
    · exact ih _ _ _ _ hrec

theorem resolveSigs_mono {κ α ε : Type} [DecidableEq κ] [DecidableEq α]
    {old rejected : Clusters κ α} {cs : List α} {co : List κ} {oldLen col : Nat} :
    ∀ (sigs : List α) (a : Clusters κ α) (t : List α) (a' : Clusters κ α) (t' : List α),
      (resolveSigs old rejected cs co oldLen col sigs (a, t) :
        Except (PyErr ε) _) = .ok (a', t') →
      ∀ (g : κ) (x : α), x ∈ getD a g → x ∈ getD a' g := by
  intro sigs
  induction sigs with
  | nil =>
    intro a t a' t' h g x hx
    obtain ⟨h1, h2⟩ := Prod.mk.injEq .. ▸ (resolveSigs_nil.mp h)
    rw [h1]
    exact hx
  | cons s rest ih =>
    intro a t a' t' h g x hx
    rcases resolveSigs_cons_ok.mp h with
      ⟨_, g0, a1, _, happ, hrec⟩ |
      ⟨_, _, gt, _, ⟨_, g0, a1, _, happ, hrec⟩ | ⟨_, a1, happ, hrec⟩⟩ |
      ⟨_, _, hrec⟩
    · exact ih _ _ _ _ hrec g x ((appendAt_mem_getD happ).mpr (Or.inl hx))
    · exact ih _ _ _ _ hrec g x ((appendAt_mem_getD happ).mpr (Or.inl hx))
    · exact ih _ _ _ _ hrec g x ((appendAt_mem_getD happ).mpr (Or.inl hx))
    · exact ih _ _ _ _ hrec g x hx

theorem resolveSigs_unassigned_inv {κ α ε : Type} [DecidableEq κ] [DecidableEq α]
    {old rejected : Clusters κ α} {cs : List α} {co : List κ} {oldLen col : Nat} :
    ∀ (sigs : List α) (a : Clusters κ α) (t : List α) (a' : Clusters κ α) (t' : List α),
      (resolveSigs old rejected cs co oldLen col sigs (a, t) :
        Except (PyErr ε) _) = .ok (a', t') →
      ∀ x ∈ t', x ∈ t ∨ (x ∈ sigs ∧ x ∉ cs) := by
  intro sigs
  induction sigs with
  | nil =>
    intro a t a' t' h x hx
    obtain ⟨h1, h2⟩ := Prod.mk.injEq .. ▸ (resolveSigs_nil.mp h)
    rw [h2] at hx
    exact Or.inl hx
  | cons s rest ih =>
    intro a t a' t' h x hx
    rcases resolveSigs_cons_ok.mp h with
      ⟨_, g0, a1, _, happ, hrec⟩ |
      ⟨_, _, gt, _, ⟨_, g0, a1, _, happ, hrec⟩ | ⟨_, a1, happ, hrec⟩⟩ |
      ⟨hcs, _, hrec⟩
    · rcases ih _ _ _ _ hrec x hx with h' | ⟨h1, h2⟩
      · exact Or.inl h'
      · exact Or.inr ⟨by simp [h1], h2⟩
    · rcases ih _ _ _ _ hrec x hx with h' | ⟨h1, h2⟩
      · exact Or.inl h'
      · exact Or.inr ⟨by simp [h1], h2⟩
    · rcases ih _ _ _ _ hrec x hx with h' | ⟨h1, h2⟩
      · exact Or.inl h'
      · exact Or.inr ⟨by simp [h1], h2⟩
    · rcases ih _ _ _ _ hrec x hx with h' | ⟨h1, h2⟩
      · rcases List.mem_append.mp h' with h'' | h''
        · exact Or.inl h''
        · have hxs : x = s := by simpa using h''
          subst hxs
          exact Or.inr ⟨by simp, hcs⟩
      · exact Or.inr ⟨by simp [h1], h2⟩

theorem resolveSigs_conserve {κ α ε : Type} [DecidableEq κ] [DecidableEq α]
    {old rejected : Clusters κ α} {cs : List α} {co : List κ} {oldLen col : Nat} :
    ∀ (sigs : List α) (a : Clusters κ α) (t : List α) (a' : Clusters κ α) (t' : List α),
      (resolveSigs old rejected cs co oldLen col sigs (a, t) :
        Except (PyErr ε) _) = .ok (a', t') →
      ((entitiesOf a' : Multiset α) + (t' : Multiset α)) =
        ((entitiesOf a : Multiset α) + (t : Multiset α) + (sigs : Multiset α)) := by
  intro sigs
  induction sigs with
  | nil =>
    intro a t a' t' h
    obtain ⟨h1, h2⟩ := Prod.mk.injEq .. ▸ (resolveSigs_nil.mp h)
    rw [h1, h2]
    simp
  | cons s rest ih =>
    intro a t a' t' h
    have coeCons : ((s :: rest : List α) : Multiset α) = {s} + (rest : Multiset α) := by
      simp [Multiset.singleton_add]
    rcases resolveSigs_cons_ok.mp h with
      ⟨_, g0, a1, _, happ, hrec⟩ |
      ⟨_, _, gt, _, ⟨_, g0, a1, _, happ, hrec⟩ | ⟨_, a1, happ, hrec⟩⟩ |
      ⟨_, _, hrec⟩
    · have hE : (entitiesOf a1 : Multiset α) = {s} + (entitiesOf a : Multiset α) := by
        rw [Multiset.coe_eq_coe.mpr (appendAt_entities happ)]
        simp [Multiset.singleton_add]
      rw [ih _ _ _ _ hrec, hE, coeCons]
      abel
    · have hE : (entitiesOf a1 : Multiset α) = {s} + (entitiesOf a : Multiset α) := by
        rw [Multiset.coe_eq_coe.mpr (appendAt_entities happ)]
        simp [Multiset.singleton_add]
      rw [ih _ _ _ _ hrec, hE, coeCons]
      abel
    · have hE : (entitiesOf a1 : Multiset α) = {s} + (entitiesOf a : Multiset α) := by
        rw [Multiset.coe_eq_coe.mpr (appendAt_entities happ)]
        simp [Multiset.singleton_add]
      rw [ih _ _ _ _ hrec, hE, coeCons]
      abel
    · have hT : ((t ++ [s] : List α) : Multiset α) = (t : Multiset α) + {s} := by
        rw [← Multiset.coe_singleton, ← Multiset.coe_add]
      rw [ih _ _ _ _ hrec, hT, coeCons]
      abel

theorem resolveSigs_mem_inv {κ α ε : Type} [DecidableEq κ] [DecidableEq α]
    {old rejected : Clusters κ α} {cs : List α} {co : List κ} {oldLen col : Nat} :
    ∀ (sigs : List α) (a : Clusters κ α) (t : List α) (a' : Clusters κ α) (t' : List α),
      (resolveSigs old rejected cs co oldLen col sigs (a, t) :
        Except (PyErr ε) _) = .ok (a', t') →
      ∀ (g : κ) (x : α), x ∈ getD a' g →
        x ∈ getD a g ∨ ∃ s ∈ sigs, x = s ∧ RouteTgt old rejected cs co oldLen col s g := by
  intro sigs
  induction sigs with
  | nil =>
    intro a t a' t' h g x hx
    obtain ⟨h1, h2⟩ := Prod.mk.injEq .. ▸ (resolveSigs_nil.mp h)
    rw [h1] at hx
    exact Or.inl hx
  | cons s rest ih =>
    intro a t a' t' h g x hx
    rcases resolveSigs_cons_ok.mp h with
      ⟨hcs, g0, a1, hg0, happ, hrec⟩ |
      ⟨hcs, hcol, gt, hget, ⟨hrej, g0, a1, hg0, happ, hrec⟩ | ⟨hrej, a1, happ, hrec⟩⟩ |
      ⟨_, _, hrec⟩
    · rcases ih _ _ _ _ hrec g x hx with h' | ⟨s1, hs1, hx1, hrt⟩
      · rcases (appendAt_mem_getD happ).mp h' with h'' | ⟨hxe, hge⟩
        · exact Or.inl h''
        · exact Or.inr ⟨s, by simp, hxe, Or.inl ⟨hcs, by rw [hge]; exact hg0⟩⟩
      · exact Or.inr ⟨s1, by simp [hs1], hx1, hrt⟩
    · rcases ih _ _ _ _ hrec g x hx with h' | ⟨s1, hs1, hx1, hrt⟩
      · rcases (appendAt_mem_getD happ).mp h' with h'' | ⟨hxe, hge⟩
        · exact Or.inl h''
        · exact Or.inr ⟨s, by simp, hxe,
            Or.inr ⟨hcs, hcol, gt, hget, Or.inl ⟨hrej, by rw [hge]; exact hg0⟩⟩⟩
      · exact Or.inr ⟨s1, by simp [hs1], hx1, hrt⟩
    · rcases ih _ _ _ _ hrec g x hx with h' | ⟨s1, hs1, hx1, hrt⟩
      · rcases (appendAt_mem_getD happ).mp h' with h'' | ⟨hxe, hge⟩
        · exact Or.inl h''
        · exact Or.inr ⟨s, by simp, hxe,
            Or.inr ⟨hcs, hcol, gt, hget, Or.inr ⟨hrej, hge⟩⟩⟩
      · exact Or.inr ⟨s1, by simp [hs1], hx1, hrt⟩
    · rcases ih _ _ _ _ hrec g x hx with h' | ⟨s1, hs1, hx1, hrt⟩
      · exact Or.inl h'
      · exact Or.inr ⟨s1, by simp [hs1], hx1, hrt⟩

theorem resolveSigs_claim_pos {κ α ε : Type} [DecidableEq κ] [DecidableEq α]
    {old rejected : Clusters κ α} {cs : List α} {co : List κ} {oldLen col : Nat} :
    ∀ (sigs : List α) (a : Clusters κ α) (t : List α) (a' : Clusters κ α) (t' : List α),
      (resolveSigs old rejected cs co oldLen col sigs (a, t) :
        Except (PyErr ε) _) = .ok (a', t') →
      ∀ s0 ∈ sigs, s0 ∈ cs →
        ∃ g, reversedOf old s0 = some g ∧ s0 ∈ getD a' g := by
  intro sigs
  induction sigs with
  | nil =>
    intro a t a' t' h s0 hs0 _
    simp at hs0
  | cons s rest ih =>
    intro a t a' t' h s0 hs0 hs0cs
    rcases List.mem_cons.mp hs0 with hs0e | hs0'
    · subst hs0e
      rcases resolveSigs_cons_ok.mp h with
        ⟨hcs, g0, a1, hg0, happ, hrec⟩ |
        ⟨hcs, _, _, _, _⟩ | ⟨hcs, _, _⟩
      · refine ⟨g0, hg0, ?_⟩
        refine resolveSigs_mono _ _ _ _ _ hrec g0 s0 ?_
        exact (appendAt_mem_getD happ).mpr (Or.inr ⟨rfl, rfl⟩)
      · exact absurd hs0cs hcs
      · exact absurd hs0cs hcs
    · rcases resolveSigs_cons_ok.mp h with
        ⟨_, g0, a1, _, _, hrec⟩ |
        ⟨_, _, gt, _, ⟨_, g0, a1, _, _, hrec⟩ | ⟨_, a1, _, hrec⟩⟩ |
        ⟨_, _, hrec⟩
      · exact ih _ _ _ _ hrec s0 hs0' hs0cs
      · exact ih _ _ _ _ hrec s0 hs0' hs0cs
      · exact ih _ _ _ _ hrec s0 hs0' hs0cs
      · exact ih _ _ _ _ hrec s0 hs0' hs0cs

theorem resolveSigs_rej_pos {κ α ε : Type} [DecidableEq κ] [DecidableEq α]
    {old rejected : Clusters κ α} {cs : List α} {co : List κ} {oldLen col : Nat} :
    ∀ (sigs : List α) (a : Clusters κ α) (t : List α) (a' : Clusters κ α) (t' : List α),
      (resolveSigs old rejected cs co oldLen col sigs (a, t) :
        Except (PyErr ε) _) = .ok (a', t') →
      ∀ s0 ∈ sigs, s0 ∉ cs → col < oldLen →
        ∀ gt, co.get? col = some gt → s0 ∈ getD rejected gt →
          ∃ g, reversedOf old s0 = some g ∧ s0 ∈ getD a' g := by
  intro sigs
  induction sigs with
  | nil =>
    intro a t a' t' h s0 hs0
    simp at hs0
  | cons s rest ih =>
    intro a t a' t' h s0 hs0 hs0cs hcol gt hget hrej
    rcases List.mem_cons.mp hs0 with hs0e | hs0'
    · subst hs0e
      rcases resolveSigs_cons_ok.mp h with
        ⟨hcs, _, _, _, _, _⟩ |
        ⟨_, _, gt', hget', ⟨hrej', g0, a1, hg0, happ, hrec⟩ | ⟨hrej', a1, _, _⟩⟩ |
        ⟨_, hncol, _⟩
      · exact absurd hcs hs0cs
      · refine ⟨g0, hg0, ?_⟩
        refine resolveSigs_mono _ _ _ _ _ hrec g0 s0 ?_
        exact (appendAt_mem_getD happ).mpr (Or.inr ⟨rfl, rfl⟩)
      · rw [hget'] at hget
        injection hget with hget
        subst hget
        exact absurd hrej hrej'
      · exact absurd hcol hncol
    · rcases resolveSigs_cons_ok.mp h with
        ⟨_, g0, a1, _, _, hrec⟩ |
        ⟨_, _, gt', _, ⟨_, g0, a1, _, _, hrec⟩ | ⟨_, a1, _, hrec⟩⟩ |
        ⟨_, _, hrec⟩
      · exact ih _ _ _ _ hrec s0 hs0' hs0cs hcol gt hget hrej
      · exact ih _ _ _ _ hrec s0 hs0' hs0cs hcol gt hget hrej
      · exact ih _ _ _ _ hrec s0 hs0' hs0cs hcol gt hget hrej
      · exact ih _ _ _ _ hrec s0 hs0' hs0cs hcol gt hget hrej

theorem resolveSigs_frame {κ α ε : Type} [DecidableEq κ] [DecidableEq α]
    {old rejected : Clusters κ α} {cs : List α} {co : List κ} {oldLen col : Nat}
    {g : κ} :
    ∀ (sigs : List α) (a : Clusters κ α) (t : List α) (a' : Clusters κ α) (t' : List α),
      (resolveSigs old rejected cs co oldLen col sigs (a, t) :
        Except (PyErr ε) _) = .ok (a', t') →
      (∀ s ∈ sigs, reversedOf old s ≠ some g) → g ∉ co →
      dictLookup a' g = dictLookup a g := by
  intro sigs
  induction sigs with
  | nil =>
    intro a t a' t' h _ _
    obtain ⟨h1, h2⟩ := Prod.mk.injEq .. ▸ (resolveSigs_nil.mp h)
    rw [h1]
  | cons s rest ih =>
    intro a t a' t' h hrev hco
    rcases resolveSigs_cons_ok.mp h with
      ⟨_, g0, a1, hg0, happ, hrec⟩ |
      ⟨_, _, gt, hget, ⟨_, g0, a1, hg0, happ, hrec⟩ | ⟨_, a1, happ, hrec⟩⟩ |
      ⟨_, _, hrec⟩
    · rw [ih _ _ _ _ hrec (fun x hx => hrev x (by simp [hx])) hco]
      refine appendAt_lookup_ne ?_ happ
      intro he
      exact hrev s (by simp) (he ▸ hg0)
    · rw [ih _ _ _ _ hrec (fun x hx => hrev x (by simp [hx])) hco]
      refine appendAt_lookup_ne ?_ happ
      intro he
      exact hrev s (by simp) (he ▸ hg0)
    · rw [ih _ _ _ _ hrec (fun x hx => hrev x (by simp [hx])) hco]
      refine appendAt_lookup_ne ?_ happ
      intro he
      subst he
      exact hco (List.get?_mem hget)
    · exact ih _ _ _ _ hrec (fun x hx => hrev x (by simp [hx])) hco

/-! ### Pair-loop lemmas -/

theorem mapE_nil {A B E : Type} {f : A → Except E B} : mapE f [] = .ok [] := rfl

theorem mapE_cons {A B E : Type} {f : A → Except E B} {a : A} {as : List A} :
    mapE f (a :: as) =
      (f a >>= fun b => mapE f as >>= fun bs => .ok (b :: bs)) := rfl

theorem mapE_ok_length {A B E : Type} {f : A → Except E B} :
    ∀ {l : List A} {l' : List B}, mapE f l = .ok l' → l'.length = l.length := by
  intro l
  induction l with
  | nil =>
    intro l' h
    rw [mapE_nil] at h
    injection h with h
    rw [← h]
    rfl
  | cons a as ih =>
    intro l' h
    rw [mapE_cons] at h
    rcases exceptBind_ok.mp h with ⟨b, _, h2⟩
    rcases exceptBind_ok.mp h2 with ⟨bs, hbs, h3⟩
    injection h3 with h3
    rw [← h3]
    simp [ih hbs]

theorem resolvePairs_nil {κ α ε : Type} [DecidableEq κ] [DecidableEq α]
    {old new rejected : Clusters κ α} {cs : List α} {co cn : List κ}
    {acc r : Clusters κ α × List (List α)} :
    (resolvePairs old new rejected cs co cn [] acc : Except (PyErr ε) _) = .ok r ↔
      r = acc := by
  show (Except.ok acc : Except (PyErr ε) _) = .ok r ↔ r = acc
  constructor
  · intro h; injection h with h; exact h.symm
  · intro h; rw [h]

theorem resolvePairs_cons {κ α ε : Type} [DecidableEq κ] [DecidableEq α]
    (old new rejected : Clusters κ α) (cs : List α) (co cn : List κ)
    (i col : Nat) (rest : List (Nat × Nat)) (a : Clusters κ α) (u : List (List α)) :
    (resolvePairs old new rejected cs co cn ((i, col) :: rest) (a, u) :
      Except (PyErr ε) _) =
      (ofOption .indexError (cn.get? i) >>= fun k =>
        ofOption .keyError (dictLookup new k) >>= fun nl =>
          resolveSigs old rejected cs co old.length col nl (a, []) >>= fun r =>
            resolvePairs old new rejected cs co cn rest
              (r.1, if r.2.isEmpty then u else u ++ [r.2])) := rfl

/-- Inversion principle for one pair of the resolver's outer loop. -/
theorem resolvePairs_cons_ok {κ α ε : Type} [DecidableEq κ] [DecidableEq α]
    {old new rejected : Clusters κ α} {cs : List α} {co cn : List κ}
    {i col : Nat} {rest : List (Nat × Nat)} {a : Clusters κ α} {u : List (List α)}
    {r : Clusters κ α × List (List α)} :
    (resolvePairs old new rejected cs co cn ((i, col) :: rest) (a, u) :
      Except (PyErr ε) _) = .ok r ↔
    ∃ k nl a1 t, cn.get? i = some k ∧ dictLookup new k = some nl ∧
      (resolveSigs old rejected cs co old.length col nl (a, []) :
        Except (PyErr ε) _) = .ok (a1, t) ∧
      (resolvePairs old new rejected cs co cn rest
        (a1, if t.isEmpty then u else u ++ [t]) : Except (PyErr ε) _) = .ok r := by
  rw [resolvePairs_cons]
  constructor
  · intro h
    rcases exceptBind_ok.mp h with ⟨k, hk, h2⟩
    rcases exceptBind_ok.mp h2 with ⟨nl, hnl, h3⟩
    rcases exceptBind_ok.mp h3 with ⟨⟨a1, t⟩, hsigs, h4⟩
    exact ⟨k, nl, a1, t, ofOption_ok.mp hk, ofOption_ok.mp hnl, hsigs, h4⟩
  · rintro ⟨k, nl, a1, t, hk, hnl, hsigs, h4⟩
    refine exceptBind_ok.mpr ⟨k, ofOption_ok.mpr hk, ?_⟩
    refine exceptBind_ok.mpr ⟨nl, ofOption_ok.mpr hnl, ?_⟩
    exact exceptBind_ok.mpr ⟨(a1, t), hsigs, h4⟩

theorem resolvePairs_keys {κ α ε : Type} [DecidableEq κ] [DecidableEq α]
    {old new rejected : Clusters κ α} {cs : List α} {co cn : List κ} :
    ∀ (pairs : List (Nat × Nat)) (a : Clusters κ α) (u : List (List α))
      (a' : Clusters κ α) (u' : List (List α)),
      (resolvePairs old new rejected cs co cn pairs (a, u) :
        Except (PyErr ε) _) = .ok (a', u') →
      a'.map Prod.fst = a.map Prod.fst := by
  intro pairs
  induction pairs with
  | nil =>
    intro a u a' u' h
    obtain ⟨h1, _⟩ := Prod.mk.injEq .. ▸ (resolvePairs_nil.mp h)
    rw [h1]
  | cons p rest ih =>
    intro a u a' u' h
    obtain ⟨i, col⟩ := p
    rcases resolvePairs_cons_ok.mp h with ⟨k, nl, a1, t, _, _, hsigs, hrest⟩
    rw [ih _ _ _ _ hrest, resolveSigs_keys _ _ _ _ _ hsigs]

theorem resolvePairs_mono {κ α ε : Type} [DecidableEq κ] [DecidableEq α]
    {old new rejected : Clusters κ α} {cs : List α} {co cn : List κ} :
    ∀ (pairs : List (Nat × Nat)) (a : Clusters κ α) (u : List (List α))
      (a' : Clusters κ α) (u' : List (List α)),
      (resolvePairs old new rejected cs co cn pairs (a, u) :
        Except (PyErr ε) _) = .ok (a', u') →
      (∀ (g : κ) (x : α), x ∈ getD a g → x ∈ getD a' g) ∧
      (∀ l ∈ u, l ∈ u') := by
  intro pairs
  induction pairs with
  | nil =>
    intro a u a' u' h
    obtain ⟨h1, h2⟩ := Prod.mk.injEq .. ▸ (resolvePairs_nil.mp h)
    rw [h1, h2]
    exact ⟨fun g x hx => hx, fun l hl => hl⟩
  | cons p rest ih =>
    intro a u a' u' h
    obtain ⟨i, col⟩ := p
    rcases resolvePairs_cons_ok.mp h with ⟨k, nl, a1, t, _, _, hsigs, hrest⟩
    obtain ⟨ihA, ihU⟩ := ih _ _ _ _ hrest
    refine ⟨fun g x hx => ihA g x (resolveSigs_mono _ _ _ _ _ hsigs g x hx),
      fun l hl => ihU l ?_⟩
    by_cases ht : t.isEmpty
    · simpa [ht] using hl
    · rw [if_neg ht]
      simp [hl]

theorem resolvePairs_unassigned_inv {κ α ε : Type} [DecidableEq κ] [DecidableEq α]
    {old new rejected : Clusters κ α} {cs : List α} {co cn : List κ} :
    ∀ (pairs : List (Nat × Nat)) (a : Clusters κ α) (u : List (List α))
      (a' : Clusters κ α) (u' : List (List α)),
      (resolvePairs old new rejected cs co cn pairs (a, u) :
        Except (PyErr ε) _) = .ok (a', u') →
      ∀ l ∈ u', l ∈ u ∨ ∀ x ∈ l, x ∉ cs := by
  intro pairs
  induction pairs with
  | nil =>
    intro a u a' u' h l hl
    obtain ⟨_, h2⟩ := Prod.mk.injEq .. ▸ (resolvePairs_nil.mp h)
    rw [h2] at hl
    exact Or.inl hl
  | cons p rest ih =>
    intro a u a' u' h l hl
    obtain ⟨i, col⟩ := p
    rcases resolvePairs_cons_ok.mp h with ⟨k, nl, a1, t, _, _, hsigs, hrest⟩
    rcases ih _ _ _ _ hrest l hl with h' | h'
    · by_cases ht : t.isEmpty
      · rw [if_pos ht] at h'
        exact Or.inl h'
      · rw [if_neg ht] at h'
        rcases List.mem_append.mp h' with h'' | h''
        · exact Or.inl h''
        · have hlt : l = t := by simpa using h''
          subst hlt
          refine Or.inr (fun x hx => ?_)
          rcases resolveSigs_unassigned_inv _ _ _ _ _ hsigs x hx with h3 | ⟨_, h4⟩
          · simp at h3
          · exact h4
    · exact Or.inr h'

theorem resolvePairs_mem_inv {κ α ε : Type} [DecidableEq κ] [DecidableEq α]
    {old new rejected : Clusters κ α} {cs : List α} {co cn : List κ} :
    ∀ (pairs : List (Nat × Nat)) (a : Clusters κ α) (u : List (List α))
      (a' : Clusters κ α) (u' : List (List α)),
      (resolvePairs old new rejected cs co cn pairs (a, u) :
        Except (PyErr ε) _) = .ok (a', u') →
      ∀ (g : κ) (x : α), x ∈ getD a' g →
        x ∈ getD a g ∨ ∃ p ∈ pairs, ∃ k nl, cn.get? p.1 = some k ∧
          dictLookup new k = some nl ∧ ∃ s ∈ nl, x = s ∧
            RouteTgt old rejected cs co old.length p.2 s g := by
  intro pairs
  induction pairs with
  | nil =>
    intro a u a' u' h g x hx
    obtain ⟨h1, _⟩ := Prod.mk.injEq .. ▸ (resolvePairs_nil.mp h)
    rw [h1] at hx
    exact Or.inl hx
  | cons p rest ih =>
    intro a u a' u' h g x hx
    obtain ⟨i, col⟩ := p
    rcases resolvePairs_cons_ok.mp h with ⟨k, nl, a1, t, hk, hnl, hsigs, hrest⟩
    rcases ih _ _ _ _ hrest g x hx with h' | ⟨p1, hp1, k1, nl1, hk1, hnl1, hs1⟩
    · rcases resolveSigs_mem_inv _ _ _ _ _ hsigs g x h' with h'' | ⟨s, hs, hxs, hrt⟩
      · exact Or.inl h''
      · exact Or.inr ⟨(i, col), by simp, k, nl, hk, hnl, s, hs, hxs, hrt⟩
    · exact Or.inr ⟨p1, by simp [hp1], k1, nl1, hk1, hnl1, hs1⟩

theorem resolvePairs_claim_pos {κ α ε : Type} [DecidableEq κ] [DecidableEq α]
    {old new rejected : Clusters κ α} {cs : List α} {co cn : List κ} :
    ∀ (pairs : List (Nat × Nat)) (a : Clusters κ α) (u : List (List α))
      (a' : Clusters κ α) (u' : List (List α)),
      (resolvePairs old new rejected cs co cn pairs (a, u) :
        Except (PyErr ε) _) = .ok (a', u') →
      ∀ p ∈ pairs, ∀ (k : κ) (nl : List α) (s0 : α),
        cn.get? p.1 = some k → dictLookup new k = some nl →
        s0 ∈ nl → s0 ∈ cs →
        ∃ g, reversedOf old s0 = some g ∧ s0 ∈ getD a' g := by
  intro pairs
  induction pairs with
  | nil =>
    intro a u a' u' h p hp
    simp at hp
  | cons q rest ih =>
    intro a u a' u' h p hp k nl s0 hk hnl hs0 hs0cs
    obtain ⟨i, col⟩ := q
    rcases resolvePairs_cons_ok.mp h with ⟨k2, nl2, a1, t, hk2, hnl2, hsigs, hrest⟩
    rcases List.mem_cons.mp hp with hpe | hp'
    · subst hpe
      rw [hk] at hk2
      injection hk2 with hk2
      subst hk2
      rw [hnl] at hnl2
      injection hnl2 with hnl2
      subst hnl2
      rcases resolveSigs_claim_pos _ _ _ _ _ hsigs s0 hs0 hs0cs with ⟨g, hg, hmem⟩
      exact ⟨g, hg, (resolvePairs_mono _ _ _ _ _ hrest).1 g s0 hmem⟩
    · exact ih _ _ _ _ hrest p hp' k nl s0 hk hnl hs0 hs0cs

theorem resolvePairs_rej_pos {κ α ε : Type} [DecidableEq κ] [DecidableEq α]
    {old new rejected : Clusters κ α} {cs : List α} {co cn : List κ} :
    ∀ (pairs : List (Nat × Nat)) (a : Clusters κ α) (u : List (List α))
      (a' : Clusters κ α) (u' : List (List α)),
      (resolvePairs old new rejected cs co cn pairs (a, u) :
        Except (PyErr ε) _) = .ok (a', u') →
      ∀ p ∈ pairs, ∀ (k : κ) (nl : List α) (s0 : α) (gt : κ),
        cn.get? p.1 = some k → dictLookup new k = some nl →
        s0 ∈ nl → s0 ∉ cs → p.2 < old.length → co.get? p.2 = some gt →
        s0 ∈ getD rejected gt →
        ∃ g, reversedOf old s0 = some g ∧ s0 ∈ getD a' g := by
  intro pairs
  induction pairs with
  | nil =>
    intro a u a' u' h p hp
    simp at hp
  | cons q rest ih =>
    intro a u a' u' h p hp k nl s0 gt hk hnl hs0 hs0cs hcol hgt hrej
    obtain ⟨i, col⟩ := q
    rcases resolvePairs_cons_ok.mp h with ⟨k2, nl2, a1, t, hk2, hnl2, hsigs, hrest⟩
    rcases List.mem_cons.mp hp with hpe | hp'
    · subst hpe
      rw [hk] at hk2
      injection hk2 with hk2
      subst hk2
      rw [hnl] at hnl2
      injection hnl2 with hnl2
      subst hnl2
      rcases resolveSigs_rej_pos _ _ _ _ _ hsigs s0 hs0 hs0cs hcol gt hgt hrej with
        ⟨g, hg, hmem⟩
      exact ⟨g, hg, (resolvePairs_mono _ _ _ _ _ hrest).1 g s0 hmem⟩
    · exact ih _ _ _ _ hrest p hp' k nl s0 gt hk hnl hs0 hs0cs hcol hgt hrej

theorem resolvePairs_frame {κ α ε : Type} [DecidableEq κ] [DecidableEq α]
    {old new rejected : Clusters κ α} {cs : List α} {co cn : List κ} {g : κ} :
    ∀ (pairs : List (Nat × Nat)) (a : Clusters κ α) (u : List (List α))
      (a' : Clusters κ α) (u' : List (List α)),
      (resolvePairs old new rejected cs co cn pairs (a, u) :
        Except (PyErr ε) _) = .ok (a', u') →
      (∀ s, s ∈ entitiesOf new → reversedOf old s ≠ some g) → g ∉ co →
      dictLookup a' g = dictLookup a g := by
  intro pairs
  induction pairs with
  | nil =>
    intro a u a' u' h _ _
    obtain ⟨h1, _⟩ := Prod.mk.injEq .. ▸ (resolvePairs_nil.mp h)
    rw [h1]
  | cons p rest ih =>
    intro a u a' u' h hrev hco
    obtain ⟨i, col⟩ := p
    rcases resolvePairs_cons_ok.mp h with ⟨k, nl, a1, t, hk, hnl, hsigs, hrest⟩
    rw [ih _ _ _ _ hrest hrev hco]
    refine resolveSigs_frame _ _ _ _ _ hsigs ?_ hco
    intro s hs
    exact hrev s (mem_entitiesOf.mpr ⟨(k, nl), dictLookup_eq_some_mem hnl, hs⟩)

theorem addShuffle {M : Type} [AddCommMonoid M] (x y u t n S : M)
    (h : x + t = y + n) : x + (u + t) + S = y + u + (n + S) := by
  calc x + (u + t) + S = (x + t) + (u + S) := by abel
    _ = (y + n) + (u + S) := by rw [h]
    _ = y + u + (n + S) := by abel

theorem resolvePairs_conserve {κ α ε : Type} [DecidableEq κ] [DecidableEq α]
    {old new rejected : Clusters κ α} {cs : List α} {co cn : List κ} :
    ∀ (pairs : List (Nat × Nat)) (a : Clusters κ α) (u : List (List α))
      (a' : Clusters κ α) (u' : List (List α)),
      (resolvePairs old new rejected cs co cn pairs (a, u) :
        Except (PyErr ε) _) = .ok (a', u') →
      ((entitiesOf a' : Multiset α) + (u'.flatten : Multiset α)) =
        ((entitiesOf a : Multiset α) + (u.flatten : Multiset α) +
          (pairs.map (fun p =>
            (((cn.get? p.1).bind (dictLookup new)).getD [] : Multiset α))).sum) := by
  intro pairs
  induction pairs with
  | nil =>
    intro a u a' u' h
    obtain ⟨h1, h2⟩ := Prod.mk.injEq .. ▸ (resolvePairs_nil.mp h)
    rw [h1, h2]
    simp
  | cons p rest ih =>
    intro a u a' u' h
    obtain ⟨i, col⟩ := p
    rcases resolvePairs_cons_ok.mp h with ⟨k, nl, a1, t, hk, hnl, hsigs, hrest⟩
    have hrow0 : (((cn.get? i).bind (dictLookup new)).getD [] : List α) = nl := by
      rw [hk]
      simp [hnl]
    have hsig' : (entitiesOf a1 : Multiset α) + (t : Multiset α) =
        (entitiesOf a : Multiset α) + (nl : Multiset α) := by
      have hcv := resolveSigs_conserve _ _ _ _ _ hsigs
      simpa using hcv
    have hu2 : ((if t.isEmpty then u else u ++ [t]).flatten : Multiset α) =
        (u.flatten : Multiset α) + (t : Multiset α) := by
      by_cases ht : t.isEmpty
      · rw [if_pos ht]
        have hte : t = [] := List.isEmpty_iff.mp ht
        simp [hte]
      · rw [if_neg ht]
        simp
    rw [ih _ _ _ _ hrest, hu2, List.map_cons, List.sum_cons, hrow0]
    exact addShuffle _ _ _ _ _ _ hsig'

/-! ### Component-processing lemmas -/

theorem processComponent_eq {κ α ε : Type} [DecidableEq κ] [DecidableEq α]
    (old new claims rejected : Clusters κ α)
    (simFn : List α → List α → List α → List α → Except ε Int)
    (solver : List (List Int) → List (Nat × Nat))
    (co cn : List κ) (acc : Clusters κ α × List (List α)) :
    processComponent old new claims rejected simFn solver co cn acc =
      (buildMatrix old new claims rejected simFn co cn >>= fun M =>
        resolvePairs old new rejected (entitiesOf claims) co cn (solver M) acc) := rfl

theorem processComponent_ok {κ α ε : Type} [DecidableEq κ] [DecidableEq α]
    {old new claims rejected : Clusters κ α}
    {simFn : List α → List α → List α → List α → Except ε Int}
    {solver : List (List Int) → List (Nat × Nat)}
    {co cn : List κ} {acc r : Clusters κ α × List (List α)} :
    processComponent old new claims rejected simFn solver co cn acc = .ok r ↔
      ∃ M, buildMatrix old new claims rejected simFn co cn = .ok M ∧
        (resolvePairs old new rejected (entitiesOf claims) co cn (solver M) acc :
          Except (PyErr ε) _) = .ok r := by
  rw [processComponent_eq, exceptBind_ok]

theorem buildMatrix_length {κ α ε : Type} [DecidableEq κ]
    {old new claims rejected : Clusters κ α}
    {simFn : List α → List α → List α → List α → Except ε Int}
    {co cn : List κ} {M : List (List Int)}
    (h : (buildMatrix old new claims rejected simFn co cn : Except (PyErr ε) _) = .ok M) :
    M.length = cn.length :=
  mapE_ok_length h

theorem processList_nil {κ α ε : Type} [DecidableEq κ] [DecidableEq α]
    {old new claims rejected : Clusters κ α}
    {simFn : List α → List α → List α → List α → Except ε Int}
    {solver : List (List Int) → List (Nat × Nat)}
    {acc r : Clusters κ α × List (List α)} :
    (processList old new claims rejected simFn solver [] acc :
      Except (PyErr ε) _) = .ok r ↔ r = acc := by
  show (Except.ok acc : Except (PyErr ε) _) = .ok r ↔ r = acc
  constructor
  · intro h; injection h with h; exact h.symm
  · intro h; rw [h]

theorem processList_cons_ok {κ α ε : Type} [DecidableEq κ] [DecidableEq α]
    {old new claims rejected : Clusters κ α}
    {simFn : List α → List α → List α → List α → Except ε Int}
    {solver : List (List Int) → List (Nat × Nat)}
    {co cn : List κ} {rest : List (List κ × List κ)}
    {acc r : Clusters κ α × List (List α)} :
    (processList old new claims rejected simFn solver ((co, cn) :: rest) acc :
      Except (PyErr ε) _) = .ok r ↔
      ∃ acc1, processComponent old new claims rejected simFn solver co cn acc = .ok acc1 ∧
        processList old new claims rejected simFn solver rest acc1 = .ok r := by
  show (processComponent old new claims rejected simFn solver co cn acc >>= fun acc1 =>
    processList old new claims rejected simFn solver rest acc1) = .ok r ↔ _
  rw [exceptBind_ok]

theorem processList_keys {κ α ε : Type} [DecidableEq κ] [DecidableEq α]
    {old new claims rejected : Clusters κ α}
    {simFn : List α → List α → List α → List α → Except ε Int}
    {solver : List (List Int) → List (Nat × Nat)} :
    ∀ (comps : List (List κ × List κ)) (a : Clusters κ α) (u : List (List α))
      (a' : Clusters κ α) (u' : List (List α)),
      (processList old new claims rejected simFn solver comps (a, u) :
        Except (PyErr ε) _) = .ok (a', u') →
      a'.map Prod.fst = a.map Prod.fst := by
  intro comps
  induction comps with
  | nil =>
    intro a u a' u' h
    obtain ⟨h1, _⟩ := Prod.mk.injEq .. ▸ (processList_nil.mp h)
    rw [h1]
  | cons comp rest ih =>
    intro a u a' u' h
    obtain ⟨co, cn⟩ := comp
    rcases processList_cons_ok.mp h with ⟨⟨a1, u1⟩, hcomp, hrest⟩
    rcases processComponent_ok.mp hcomp with ⟨M, _, hpairs⟩
    rw [ih _ _ _ _ hrest, resolvePairs_keys _ _ _ _ _ hpairs]

theorem processList_mono {κ α ε : Type} [DecidableEq κ] [DecidableEq α]
    {old new claims rejected : Clusters κ α}
    {simFn : List α → List α → List α → List α → Except ε Int}
    {solver : List (List Int) → List (Nat × Nat)} :
    ∀ (comps : List (List κ × List κ)) (a : Clusters κ α) (u : List (List α))
      (a' : Clusters κ α) (u' : List (List α)),
      (processList old new claims rejected simFn solver comps (a, u) :
        Except (PyErr ε) _) = .ok (a', u') →
      (∀ (g : κ) (x : α), x ∈ getD a g → x ∈ getD a' g) ∧ (∀ l ∈ u, l ∈ u') := by
  intro comps
  induction comps with
  | nil =>
    intro a u a' u' h
    obtain ⟨h1, h2⟩ := Prod.mk.injEq .. ▸ (processList_nil.mp h)
    rw [h1, h2]
    exact ⟨fun _ _ hx => hx, fun _ hl => hl⟩
  | cons comp rest ih =>
    intro a u a' u' h
    obtain ⟨co, cn⟩ := comp
    rcases processList_cons_ok.mp h with ⟨⟨a1, u1⟩, hcomp, hrest⟩
    rcases processComponent_ok.mp hcomp with ⟨M, _, hpairs⟩
    obtain ⟨ihA, ihU⟩ := ih _ _ _ _ hrest
    obtain ⟨pA, pU⟩ := resolvePairs_mono _ _ _ _ _ hpairs
    exact ⟨fun g x hx => ihA g x (pA g x hx), fun l hl => ihU l (pU l hl)⟩

theorem processList_unassigned_inv {κ α ε : Type} [DecidableEq κ] [DecidableEq α]
    {old new claims rejected : Clusters κ α}
    {simFn : List α → List α → List α → List α → Except ε Int}
    {solver : List (List Int) → List (Nat × Nat)} :
    ∀ (comps : List (List κ × List κ)) (a : Clusters κ α) (u : List (List α))
      (a' : Clusters κ α) (u' : List (List α)),
      (processList old new claims rejected simFn solver comps (a, u) :
        Except (PyErr ε) _) = .ok (a', u') →
      ∀ l ∈ u', l ∈ u ∨ ∀ x ∈ l, x ∉ entitiesOf claims := by
  intro comps
  induction comps with
  | nil =>
    intro a u a' u' h l hl
    obtain ⟨_, h2⟩ := Prod.mk.injEq .. ▸ (processList_nil.mp h)
    rw [h2] at hl
    exact Or.inl hl
  | cons comp rest ih =>
    intro a u a' u' h l hl
    obtain ⟨co, cn⟩ := comp
    rcases processList_cons_ok.mp h with ⟨⟨a1, u1⟩, hcomp, hrest⟩
    rcases processComponent_ok.mp hcomp with ⟨M, _, hpairs⟩
    rcases ih _ _ _ _ hrest l hl with h' | h'
    · exact resolvePairs_unassigned_inv _ _ _ _ _ hpairs l h'
    · exact Or.inr h'

theorem processList_mem_inv {κ α ε : Type} [DecidableEq κ] [DecidableEq α]
    {old new claims rejected : Clusters κ α}
    {simFn : List α → List α → List α → List α → Except ε Int}
    {solver : List (List Int) → List (Nat × Nat)} :
    ∀ (comps : List (List κ × List κ)) (a : Clusters κ α) (u : List (List α))
      (a' : Clusters κ α) (u' : List (List α)),
      (processList old new claims rejected simFn solver comps (a, u) :
        Except (PyErr ε) _) = .ok (a', u') →
      ∀ (g : κ) (x : α), x ∈ getD a' g →
        x ∈ getD a g ∨ ∃ comp ∈ comps, ∃ M,
          buildMatrix old new claims rejected simFn comp.1 comp.2 = .ok M ∧
          ∃ p ∈ solver M, ∃ k nl, comp.2.get? p.1 = some k ∧
            dictLookup new k = some nl ∧ ∃ s ∈ nl, x = s ∧
              RouteTgt old rejected (entitiesOf claims) comp.1 old.length p.2 s g := by
  intro comps
  induction comps with
  | nil =>
    intro a u a' u' h g x hx
    obtain ⟨h1, _⟩ := Prod.mk.injEq .. ▸ (processList_nil.mp h)
    rw [h1] at hx
    exact Or.inl hx
  | cons comp rest ih =>
    intro a u a' u' h g x hx
    obtain ⟨co, cn⟩ := comp
    rcases processList_cons_ok.mp h with ⟨⟨a1, u1⟩, hcomp, hrest⟩
    rcases processComponent_ok.mp hcomp with ⟨M, hM, hpairs⟩
    rcases ih _ _ _ _ hrest g x hx with h' | ⟨comp1, hcomp1, hrest1⟩
    · rcases resolvePairs_mem_inv _ _ _ _ _ hpairs g x h' with h'' | ⟨p, hp, hdata⟩
      · exact Or.inl h''
      · exact Or.inr ⟨(co, cn), by simp, M, hM, p, hp, hdata⟩
    · exact Or.inr ⟨comp1, by simp [hcomp1], hrest1⟩

theorem processList_frame {κ α ε : Type} [DecidableEq κ] [DecidableEq α]
    {old new claims rejected : Clusters κ α}
    {simFn : List α → List α → List α → List α → Except ε Int}
    {solver : List (List Int) → List (Nat × Nat)} {g : κ} :
    ∀ (comps : List (List κ × List κ)) (a : Clusters κ α) (u : List (List α))
      (a' : Clusters κ α) (u' : List (List α)),
      (processList old new claims rejected simFn solver comps (a, u) :
        Except (PyErr ε) _) = .ok (a', u') →
      (∀ s, s ∈ entitiesOf new → reversedOf old s ≠ some g) →
      (∀ comp ∈ comps, g ∉ comp.1) →
      dictLookup a' g = dictLookup a g := by
  intro comps
  induction comps with
  | nil =>
    intro a u a' u' h _ _
    obtain ⟨h1, _⟩ := Prod.mk.injEq .. ▸ (processList_nil.mp h)
    rw [h1]
  | cons comp rest ih =>
    intro a u a' u' h hrev hco
    obtain ⟨co, cn⟩ := comp
    rcases processList_cons_ok.mp h with ⟨⟨a1, u1⟩, hcomp, hrest⟩
    rcases processComponent_ok.mp hcomp with ⟨M, _, hpairs⟩
    rw [ih _ _ _ _ hrest hrev (fun c hc => hco c (by simp [hc]))]
    exact resolvePairs_frame _ _ _ _ _ hpairs hrev (hco (co, cn) (by simp))

/-! ### Conservation accounting -/

theorem sum_range_getD {κ α : Type} [DecidableEq κ] {new : Clusters κ α} :
    ∀ cn : List κ,
      ((List.range cn.length).map fun i =>
        (((cn.get? i).bind (dictLookup new)).getD [] : Multiset α)).sum =
      (cn.map fun k => ((getD new k : List α) : Multiset α)).sum := by
  intro cn
  induction cn with
  | nil => simp
  | cons k rest ih =>
    rw [show (k :: rest).length = rest.length + 1 from rfl, List.range_succ_eq_map]
    simp only [List.map_cons, List.map_map, List.sum_cons]
    have hhead : ((((k :: rest).get? 0).bind (dictLookup new)).getD [] : List α) =
        getD new k := by
      simp [getD]
    rw [hhead]
    congr 1

theorem perm_sum_rows {β : Type} [AddCommMonoid β] {pairs : List (Nat × Nat)} {n : Nat}
    (hperm : (pairs.map Prod.fst).Perm (List.range n)) (F : Nat → β) :
    (pairs.map fun p => F p.1).sum = ((List.range n).map F).sum := by
  have h1 : (pairs.map fun p => F p.1) = (pairs.map Prod.fst).map F := by
    rw [List.map_map]
    rfl
  rw [h1]
  exact (hperm.map F).sum_eq

theorem processComponent_conserve {κ α ε : Type} [DecidableEq κ] [DecidableEq α]
    {old new claims rejected : Clusters κ α}
    {simFn : List α → List α → List α → List α → Except ε Int}
    {solver : List (List Int) → List (Nat × Nat)}
    (hsolver : ∀ M, ((solver M).map Prod.fst).Perm (List.range M.length))
    {co cn : List κ} {a a' : Clusters κ α} {u u' : List (List α)}
    (h : (processComponent old new claims rejected simFn solver co cn (a, u) :
      Except (PyErr ε) _) = .ok (a', u')) :
    ((entitiesOf a' : Multiset α) + (u'.flatten : Multiset α)) =
      ((entitiesOf a : Multiset α) + (u.flatten : Multiset α) +
        (cn.map fun k => ((getD new k : List α) : Multiset α)).sum) := by
  rcases processComponent_ok.mp h with ⟨M, hM, hpairs⟩
  rw [resolvePairs_conserve _ _ _ _ _ hpairs]
  congr 1
  have hpm := perm_sum_rows (n := cn.length) (buildMatrix_length hM ▸ hsolver M)
    (fun i => (((cn.get? i).bind (dictLookup new)).getD [] : Multiset α))
  rw [hpm, sum_range_getD]

theorem processList_conserve {κ α ε : Type} [DecidableEq κ] [DecidableEq α]
    {old new claims rejected : Clusters κ α}
    {simFn : List α → List α → List α → List α → Except ε Int}
    {solver : List (List Int) → List (Nat × Nat)}
    (hsolver : ∀ M, ((solver M).map Prod.fst).Perm (List.range M.length)) :
    ∀ (comps : List (List κ × List κ)) (a : Clusters κ α) (u : List (List α))
      (a' : Clusters κ α) (u' : List (List α)),
      (processList old new claims rejected simFn solver comps (a, u) :
        Except (PyErr ε) _) = .ok (a', u') →
      ((entitiesOf a' : Multiset α) + (u'.flatten : Multiset α)) =
        ((entitiesOf a : Multiset α) + (u.flatten : Multiset α) +
          (((comps.map Prod.snd).flatten).map fun k =>
            ((getD new k : List α) : Multiset α)).sum) := by
  intro comps
  induction comps with
  | nil =>
    intro a u a' u' h
    obtain ⟨h1, h2⟩ := Prod.mk.injEq .. ▸ (processList_nil.mp h)
    rw [h1, h2]
    simp
  | cons comp rest ih =>
    intro a u a' u' h
    obtain ⟨co, cn⟩ := comp
    rcases processList_cons_ok.mp h with ⟨⟨a1, u1⟩, hcomp, hrest⟩
    rw [ih _ _ _ _ hrest, processComponent_conserve hsolver hcomp]
    simp only [List.map_cons, List.flatten_cons, List.map_append, List.sum_append]
    abel

theorem sum_getD_keys_eq_entities {κ α : Type} [DecidableEq κ] :
    ∀ {new : Clusters κ α}, (new.map Prod.fst).Nodup →
      ((new.map Prod.fst).map fun k => ((getD new k : List α) : Multiset α)).sum =
        (entitiesOf new : Multiset α) := by
  intro new
  induction new with
  | nil => intro _; simp [entitiesOf]
  | cons p rest ih =>
    intro hnd
    obtain ⟨k, l⟩ := p
    simp only [List.map_cons, List.nodup_cons] at hnd
    simp only [List.map_cons, List.sum_cons]
    have hk : getD ((k, l) :: rest) k = l := by
      simp [getD, dictLookup_cons]
    rw [hk]
    have htail : ((rest.map Prod.fst).map fun k' =>
        ((getD ((k, l) :: rest) k' : List α) : Multiset α)).sum =
        ((rest.map Prod.fst).map fun k' => ((getD rest k' : List α) : Multiset α)).sum := by
      congr 1
      apply List.map_congr_left
      intro k' hk'
      have hne : k ≠ k' := fun he => hnd.1 (he ▸ hk')
      simp [getD, dictLookup_cons, hne]
    rw [htail, ih hnd.2]
    simp only [entitiesOf, List.map_cons, List.flatten_cons]
    rw [← Multiset.coe_add]

/-! ### The greedy stand-in solver satisfies the solver interface -/

theorem greedyAux_map_fst :
    ∀ (M : List (List Int)) (used : List Nat) (i : Nat),
      (greedyAux M used i).map Prod.fst = List.range' i M.length := by
  intro M
  induction M with
  | nil => intro used i; rfl
  | cons row rest ih =>
    intro used i
    rw [show greedyAux (row :: rest) used i =
      (i, pickCol row used) :: greedyAux rest (pickCol row used :: used) (i + 1) from rfl]
    simp only [List.map_cons, ih]
    rw [show (row :: rest).length = rest.length + 1 from rfl, List.range'_succ]

theorem greedySolver_rows_perm :
    ∀ M, ((greedySolver M).map Prod.fst).Perm (List.range M.length) := by
  intro M
  rw [greedySolver, greedyAux_map_fst, ← List.range_eq_range']

/-! ### Test-suite scenarios of `tests/matching/test_clusters.py`,
replayed against the embedding (with `greedySolver` standing in for
`munkres`, which picks the same pairs on these matrices). -/

example :
    cluster_assignment ([] : Clusters Nat Nat) []
      (fun _ _ _ _ => (.ok 1 : Except Unit Int)) [] [] greedySolver =
      .ok ([], []) := rfl

example :
    cluster_assignment [(1, []), (2, [2, 3, 4])] [(1, [2, 3, 4])]
      (fun _ _ _ _ => (.ok 1 : Except Unit Int)) [] [] greedySolver =
      .ok ([(1, []), (2, [2, 3, 4])], []) := rfl

example :
    cluster_assignment [(1, [1]), (2, [2, 3])] [(1, [1, 2, 3])]
      (fun x y _ _ => (.ok (-((x.filter (· ∈ y)).length : Int)) : Except Unit Int))
      [] [] greedySolver =
      .ok ([(1, []), (2, [1, 2, 3])], []) := rfl

example :
    cluster_assignment [(1, [1, 2]), (2, [3])] [(1, [1]), (2, [2, 3])]
      (fun x y _ _ => (.ok (-((x.filter (· ∈ y)).length : Int)) : Except Unit Int))
      [(1, [2])] [] greedySolver =
      .ok ([(1, [1, 2]), (2, [3])], []) := rfl

example :
    cluster_assignment [(1, [1, 2]), (2, [3])] [(1, [1]), (2, [2, 3])]
      (fun x y _ _ => (.ok (-((x.filter (· ∈ y)).length : Int)) : Except Unit Int))
      [] [(2, [2])] greedySolver =
      .ok ([(1, [1, 2]), (2, [3])], []) := rfl

example :
    cluster_assignment [(1, [9]), (2, [10, 11]), (3, [12, 13]), (4, [14])]
      [(5, [10]), (6, [9, 11]), (8, [12, 14]), (9, [13])]
      (fun _ _ _ _ => (.ok 1 : Except Unit Int)) [] [] greedySolver =
      .ok ([(1, [9, 11]), (2, [10]), (3, [12, 14]), (4, [13])], []) := rfl

example :
    cluster_assignment [(1, [1, 2, 3])] [(1, [1]), (2, [2]), (3, [3])]
      (fun _ _ _ _ => (.ok 1 : Except Unit Int)) [] [] greedySolver =
      .ok ([(1, [1])], [[2], [3]]) := rfl

/-! ### Claim theorems -/

theorem entitiesOf_init {κ α : Type} (old : Clusters κ α) :
    entitiesOf (old.map fun kv => (kv.1, ([] : List α))) = [] := by
  induction old with
  | nil => rfl
  | cons p rest ih => simpa [entitiesOf] using ih

theorem cluster_assignment_eq_mainLoop {κ α ε : Type} [DecidableEq κ] [DecidableEq α]
    (old new claims rejected : Clusters κ α)
    (simFn : List α → List α → List α → List α → Except ε Int)
    (solver : List (List Int) → List (Nat × Nat)) :
    cluster_assignment old new simFn claims rejected solver =
      mainLoop old new claims rejected simFn solver new [] []
        (old.map (fun kv => (kv.1, ([] : List α))), []) := rfl

/-- The new-cluster keys are exactly the clusters distributed over the
discovered components, in some order. -/
theorem components_cover {κ α ε : Type} [DecidableEq κ] [DecidableEq α]
    {old new : Clusters κ α} {comps : List (List κ × List κ)}
    (hnodupNew : (new.map Prod.fst).Nodup)
    (hcomps : (componentsOf old new : Except (PyErr ε) _) = .ok comps) :
    ((comps.map Prod.snd).flatten).Perm (new.map Prod.fst) := by
  obtain ⟨hMem, _, hKeys, _, _, hNvNd, _⟩ :=
    componentsLoop_spec new [] [] comps (fun p hp => hp) hcomps
  have hsub : (comps.map Prod.snd).flatten ⊆ new.map Prod.fst := by
    intro c hc
    rcases List.mem_flatten.mp hc with ⟨l, hl, hcl⟩
    rcases List.mem_map.mp hl with ⟨comp, hcomp, hle⟩
    exact hKeys comp hcomp c (hle ▸ hcl)
  have hsup : new.map Prod.fst ⊆ (comps.map Prod.snd).flatten := by
    intro k hk
    rcases List.mem_map.mp hk with ⟨p, hp, hpk⟩
    have := hMem p hp
    simp only [List.nil_append] at this
    exact hpk ▸ this
  have hnd : ((comps.map Prod.snd).flatten).Nodup := by
    have h0 := hNvNd List.nodup_nil
    rwa [List.nil_append] at h0
  exact (hnd.subperm hsub).antisymm (hnodupNew.subperm hsup)

/-- C1: for internally disjoint old and new partitions and any cost
function, a normal return of `cluster_assignment` loses and invents no
entity: the multiset of entities across the `assigned` value lists
together with the `unassigned` lists equals the multiset of entities of
`new_clusters`.  (The solver is assumed to return one pair per matrix
row, the documented `munkres` interface.) -/
theorem c1_entity_conservation {κ α ε : Type} [DecidableEq κ] [DecidableEq α]
    (old new claims rejected : Clusters κ α)
    (simFn : List α → List α → List α → List α → Except ε Int)
    (solver : List (List Int) → List (Nat × Nat))
    (a : Clusters κ α) (u : List (List α))
    (hdisjOld : DisjointClusters old) (hdisjNew : DisjointClusters new)
    (hnodupNew : (new.map Prod.fst).Nodup)
    (hsolver : ∀ M, ((solver M).map Prod.fst).Perm (List.range M.length))
    (hok : cluster_assignment old new simFn claims rejected solver = .ok (a, u)) :
    ((entitiesOf a ++ u.flatten : List α) : Multiset α) =
      (entitiesOf new : Multiset α) := by
  rw [cluster_assignment_eq_mainLoop] at hok
  rcases mainLoop_eq_processList new [] [] _ _ hok with ⟨comps, hcomps, hproc⟩
  have hperm := components_cover hnodupNew hcomps
  have hcons := processList_conserve hsolver comps _ _ _ _ hproc
  rw [entitiesOf_init] at hcons
  have hsum : ((((comps.map Prod.snd).flatten).map fun k =>
      ((getD new k : List α) : Multiset α)).sum) = (entitiesOf new : Multiset α) := by
    rw [(hperm.map fun k => ((getD new k : List α) : Multiset α)).sum_eq,
      sum_getD_keys_eq_entities hnodupNew]
  rw [← Multiset.coe_add]
  rw [hcons, hsum]
  simp

/-- C1 witness: the intersection-cost scenario of the test suite. -/
theorem c1_entity_conservation_witness :
    DisjointClusters ([(1, [1]), (2, [2, 3])] : Clusters Nat Nat) ∧
    ((entitiesOf ([(1, []), (2, [1, 2, 3])] : Clusters Nat Nat) ++
      ([] : List (List Nat)).flatten : List Nat) : Multiset Nat) =
      (entitiesOf ([(1, [1, 2, 3])] : Clusters Nat Nat) : Multiset Nat) := by
  have hok : cluster_assignment [(1, [1]), (2, [2, 3])] [(1, [1, 2, 3])]
      (fun x y _ _ => (.ok (-((x.filter (· ∈ y)).length : Int)) : Except Unit Int))
      [] [] greedySolver = .ok ([(1, []), (2, [1, 2, 3])], []) := rfl
  refine ⟨by decide, ?_⟩
  exact c1_entity_conservation _ _ _ _ _ _ _ _
    (by decide) (by decide) (by decide) greedySolver_rows_perm hok


theorem dictLookup_init {κ α : Type} [DecidableEq κ] {old : Clusters κ α} {g : κ} {l : List α}
    (h : (g, l) ∈ old) :
    dictLookup (old.map fun kv => (kv.1, ([] : List α))) g = some [] := by
  induction old with
  | nil => cases h
  | cons p rest ih =>
    simp only [List.map_cons]
    rw [dictLookup_cons]
    by_cases hk : p.1 = g
    · rw [if_pos hk]
    · rw [if_neg hk]
      rcases List.mem_cons.mp h with h' | h'
      · exact absurd (congrArg Prod.fst h').symm hk
      · exact ih h'

/-- C2: on a normal return the `assigned` keys are exactly the old keys,
in order; and (for distinct old keys) an old group sharing no entity with
any new cluster keeps its initial empty list. -/
theorem c2_keys_preserved {κ α ε : Type} [DecidableEq κ] [DecidableEq α]
    (old new claims rejected : Clusters κ α)
    (simFn : List α → List α → List α → List α → Except ε Int)
    (solver : List (List Int) → List (Nat × Nat))
    (a : Clusters κ α) (u : List (List α))
    (hok : cluster_assignment old new simFn claims rejected solver = .ok (a, u)) :
    a.map Prod.fst = old.map Prod.fst ∧
    ∀ g l, (old.map Prod.fst).Nodup → (g, l) ∈ old →
      (∀ x ∈ l, x ∉ entitiesOf new) → dictLookup a g = some [] := by
  rw [cluster_assignment_eq_mainLoop] at hok
  rcases mainLoop_eq_processList new [] [] _ _ hok with ⟨comps, hcomps, hproc⟩
  constructor
  · rw [processList_keys comps _ _ _ _ hproc]
    simp [List.map_map, Function.comp]
  · intro g l hnd hmem hdisj
    have hrev : ∀ s, s ∈ entitiesOf new → reversedOf old s ≠ some g := by
      intro s hs hrevs
      rcases reversedOf_some hrevs with ⟨l', hl', hsl'⟩
      have h1 := dictLookup_of_nodup hnd hmem
      have h2 := dictLookup_of_nodup hnd hl'
      rw [h1] at h2
      injection h2 with h2
      exact hdisj s (by rw [h2]; exact hsl') hs
    have hprov := (componentsLoop_spec new [] [] comps (fun p hp => hp) hcomps).2.2.2.2.1
    have hcomp : ∀ comp ∈ comps, g ∉ comp.1 := by
      intro comp hc hg
      rcases hprov comp hc g hg with ⟨s, hs, hrevs⟩
      exact hrev s hs hrevs
    rw [processList_frame comps _ _ _ _ hproc hrev hcomp]
    exact dictLookup_init hmem

/-- C2 witness: old group 7 shares nothing with the new clusters and
keeps its key, mapped to the empty list. -/
theorem c2_keys_preserved_witness :
    ([(1, [1]), (7, [])] : Clusters Nat Nat).map Prod.fst =
      ([(1, [1]), (7, [9])] : Clusters Nat Nat).map Prod.fst ∧
    dictLookup ([(1, [1]), (7, [])] : Clusters Nat Nat) 7 = some [] := by
  have hok : cluster_assignment [(1, [1]), (7, [9])] [(1, [1])]
      (fun _ _ _ _ => (.ok 0 : Except Unit Int)) [] [] greedySolver =
      .ok ([(1, [1]), (7, [])], []) := rfl
  have h := c2_keys_preserved _ _ _ _ _ _ _ _ hok
  exact ⟨h.1, h.2 7 [9] (by decide) (by decide) (by decide)⟩


theorem pair_for_row {solver : List (List Int) → List (Nat × Nat)}
    (hsolver : ∀ M, ((solver M).map Prod.fst).Perm (List.range M.length))
    {M : List (List Int)} {i : Nat} (hi : i < M.length) :
    ∃ col, (i, col) ∈ solver M := by
  have hmem : i ∈ (solver M).map Prod.fst :=
    ((hsolver M).mem_iff).mpr (List.mem_range.mpr hi)
  rcases List.mem_map.mp hmem with ⟨p, hp, hpi⟩
  exact ⟨p.2, by rw [← hpi]; exact hp⟩

theorem processList_claim_pos {κ α ε : Type} [DecidableEq κ] [DecidableEq α]
    {old new claims rejected : Clusters κ α}
    {simFn : List α → List α → List α → List α → Except ε Int}
    {solver : List (List Int) → List (Nat × Nat)}
    (hsolver : ∀ M, ((solver M).map Prod.fst).Perm (List.range M.length)) :
    ∀ (comps : List (List κ × List κ)) (a : Clusters κ α) (u : List (List α))
      (a' : Clusters κ α) (u' : List (List α)),
      (processList old new claims rejected simFn solver comps (a, u) :
        Except (PyErr ε) _) = .ok (a', u') →
      ∀ comp ∈ comps, ∀ k ∈ comp.2, ∀ nl, dictLookup new k = some nl →
        ∀ s0 ∈ nl, s0 ∈ entitiesOf claims →
          ∃ g, reversedOf old s0 = some g ∧ s0 ∈ getD a' g := by
  intro comps
  induction comps with
  | nil =>
    intro a u a' u' h comp hcomp
    simp at hcomp
  | cons comp0 rest ih =>
    intro a u a' u' h comp hcomp k hk nl hnl s0 hs0 hs0cs
    obtain ⟨co, cn⟩ := comp0
    rcases processList_cons_ok.mp h with ⟨⟨a1, u1⟩, hstep, hrest⟩
    rcases List.mem_cons.mp hcomp with hce | hc'
    · subst hce
      rcases processComponent_ok.mp hstep with ⟨M, hM, hpairs⟩
      rcases List.mem_iff_get?.mp hk with ⟨i, hget⟩
      have hi : i < M.length := by
        rw [buildMatrix_length hM]
        exact (List.get?_eq_some.mp hget).1
      rcases pair_for_row hsolver hi with ⟨col, hpair⟩
      rcases resolvePairs_claim_pos _ _ _ _ _ hpairs (i, col) hpair k nl s0
        hget hnl hs0 hs0cs with ⟨g, hg, hmem⟩
      exact ⟨g, hg, (processList_mono _ _ _ _ _ hrest).1 g s0 hmem⟩
    · exact ih _ _ _ _ hrest comp hc' k hk nl hnl s0 hs0 hs0cs

/-- C4: an entity of a new cluster that appears in some claims list is
routed to the old group the old-partition reverse index gives it,
whatever column the solver assigned, and ends up in no unassigned
list. -/
theorem c4_claimed_entity_routing {κ α ε : Type} [DecidableEq κ] [DecidableEq α]
    (old new claims rejected : Clusters κ α)
    (simFn : List α → List α → List α → List α → Except ε Int)
    (solver : List (List Int) → List (Nat × Nat))
    (a : Clusters κ α) (u : List (List α))
    (hnodupNew : (new.map Prod.fst).Nodup)
    (hsolver : ∀ M, ((solver M).map Prod.fst).Perm (List.range M.length))
    (hok : cluster_assignment old new simFn claims rejected solver = .ok (a, u))
    (k : κ) (nl : List α) (hmem : (k, nl) ∈ new) (s : α) (hs : s ∈ nl)
    (hcl : s ∈ entitiesOf claims) :
    (∃ g, reversedOf old s = some g ∧ s ∈ getD a g) ∧ ∀ l ∈ u, s ∉ l := by
  rw [cluster_assignment_eq_mainLoop] at hok
  rcases mainLoop_eq_processList new [] [] _ _ hok with ⟨comps, hcomps, hproc⟩
  constructor
  · have hkmem : k ∈ (comps.map Prod.snd).flatten :=
      (components_cover hnodupNew hcomps).mem_iff.mpr
        (List.mem_map.mpr ⟨(k, nl), hmem, rfl⟩)
    rcases List.mem_flatten.mp hkmem with ⟨l, hl, hkl⟩
    rcases List.mem_map.mp hl with ⟨comp, hcomp, hle⟩
    exact processList_claim_pos hsolver comps _ _ _ _ hproc comp hcomp k
      (hle ▸ hkl) nl (dictLookup_of_nodup hnodupNew hmem) s hs hcl
  · intro l hl hsl
    rcases processList_unassigned_inv comps _ _ _ _ hproc l hl with h' | h'
    · simp at h'
    · exact h' s hsl hcl

/-- C4 witness: the claimed-entity scenario of the test suite; entity 2
is claimed by old group 1 and routed there although the solver pairs its
new cluster with old group 2. -/
theorem c4_claimed_entity_routing_witness :
    (∃ g, reversedOf ([(1, [1, 2]), (2, [3])] : Clusters Nat Nat) 2 = some g ∧
      2 ∈ getD ([(1, [1, 2]), (2, [3])] : Clusters Nat Nat) g) ∧
    ∀ l ∈ ([] : List (List Nat)), 2 ∉ l := by
  have hok : cluster_assignment [(1, [1, 2]), (2, [3])] [(1, [1]), (2, [2, 3])]
      (fun x y _ _ => (.ok (-((x.filter (· ∈ y)).length : Int)) : Except Unit Int))
      [(1, [2])] [] greedySolver = .ok ([(1, [1, 2]), (2, [3])], []) := rfl
  exact c4_claimed_entity_routing _ _ _ _ _ _ _ _ (by decide)
    greedySolver_rows_perm hok 2 [2, 3] (by decide) 2 (by decide) (by decide)


theorem mem_getD_entitiesOf {κ α : Type} [DecidableEq κ] {d : Clusters κ α} {g : κ} {s : α}
    (h : s ∈ getD d g) : s ∈ entitiesOf d := by
  unfold getD at h
  cases hd : dictLookup d g with
  | none => rw [hd] at h; cases h
  | some l =>
    rw [hd] at h
    exact mem_entitiesOf.mpr ⟨(g, l), dictLookup_eq_some_mem hd, h⟩

/-- C3 counterexample: entity 2 is claimed by old group 1 but currently
belongs to old group 2; the run routes it to `assigned[2]`, the group of
the reverse index, not to the claiming group 1. -/
theorem c3_claim_dominance_counterexample :
    cluster_assignment [(1, [1]), (2, [2])] [(1, [1, 2])]
      (fun _ _ _ _ => (.ok 0 : Except Unit Int)) [(1, [2])] [] greedySolver =
      .ok ([(1, [1]), (2, [2])], []) ∧
    2 ∈ getD ([(1, [2])] : Clusters Nat Nat) 1 ∧
    2 ∈ entitiesOf ([(1, [1, 2])] : Clusters Nat Nat) ∧
    2 ∉ getD ([(1, [1]), (2, [2])] : Clusters Nat Nat) 1 :=
  ⟨rfl, by decide, by decide, by decide⟩

/-- C3 amended: a claimed entity appearing in a new cluster lands in
`assigned[g]` for the old group `g` that currently contains it (line
176 routes through the old-partition reverse index); only when the
claiming record is that same group does the claim route it there. -/
theorem c3_claim_dominance_amended {κ α ε : Type} [DecidableEq κ] [DecidableEq α]
    (old new claims rejected : Clusters κ α)
    (simFn : List α → List α → List α → List α → Except ε Int)
    (solver : List (List Int) → List (Nat × Nat))
    (a : Clusters κ α) (u : List (List α))
    (hdisjOld : DisjointClusters old)
    (hnodupNew : (new.map Prod.fst).Nodup)
    (hsolver : ∀ M, ((solver M).map Prod.fst).Perm (List.range M.length))
    (hok : cluster_assignment old new simFn claims rejected solver = .ok (a, u))
    (g : κ) (s : α) (hclaim : s ∈ getD claims g)
    (k : κ) (nl : List α) (hmem : (k, nl) ∈ new) (hs : s ∈ nl)
    (ol : List α) (hgo : (g, ol) ∈ old) (hsol : s ∈ ol) :
    s ∈ getD a g := by
  rw [cluster_assignment_eq_mainLoop] at hok
  rcases mainLoop_eq_processList new [] [] _ _ hok with ⟨comps, hcomps, hproc⟩
  have hkmem : k ∈ (comps.map Prod.snd).flatten :=
    (components_cover hnodupNew hcomps).mem_iff.mpr
      (List.mem_map.mpr ⟨(k, nl), hmem, rfl⟩)
  rcases List.mem_flatten.mp hkmem with ⟨l, hl, hkl⟩
  rcases List.mem_map.mp hl with ⟨comp, hcomp, hle⟩
  rcases processList_claim_pos hsolver comps _ _ _ _ hproc comp hcomp k
    (hle ▸ hkl) nl (dictLookup_of_nodup hnodupNew hmem) s hs
    (mem_getD_entitiesOf hclaim) with ⟨g', hg', hmem'⟩
  have hrev : reversedOf old s = some g := reversedOf_of_disjoint hdisjOld hgo hsol
  rw [hrev] at hg'
  injection hg' with hg'
  rw [← hg'] at hmem'
  exact hmem'

/-- C3 amended witness: entity 2 claimed by old group 1, which also
currently contains it, ends up in that group. -/
theorem c3_claim_dominance_amended_witness :
    2 ∈ getD ([(1, [1, 2]), (2, [3])] : Clusters Nat Nat) 1 := by
  have hok : cluster_assignment [(1, [1, 2]), (2, [3])] [(1, [1]), (2, [2, 3])]
      (fun x y _ _ => (.ok (-((x.filter (· ∈ y)).length : Int)) : Except Unit Int))
      [(1, [2])] [] greedySolver = .ok ([(1, [1, 2]), (2, [3])], []) := rfl
  exact c3_claim_dominance_amended _ _ _ _ _ _ _ _ (by decide) (by decide)
    greedySolver_rows_perm hok 1 2 (by decide) 2 [2, 3] (by decide) (by decide)
    [1, 2] (by decide) (by decide)


/-- C6: the dummy test of source line 177 compares the assigned column
against `len(old_clusters)` — all old groups — instead of the number of
old groups in the current component.  With a second old group outside
the component, the dummy column of a one-old-group component passes the
test and `current_old[old]` raises `IndexError`. -/
theorem c6_dummy_threshold_bug :
    cluster_assignment [(0, [0]), (1, [1])] [(0, [0])]
      (fun _ y _ _ => (.ok (if y.isEmpty then 0 else 5) : Except Unit Int))
      [] [] greedySolver = .error .indexError := rfl

/-- C7 counterexample: a new cluster sharing no entity with any old
cluster does not land in `unassigned`; line 140's `reversed_old[sig]`
lookup raises `KeyError` instead. -/
theorem c7_unmatched_cluster_counterexample :
    (∀ x ∈ ([5] : List Nat), x ∉ entitiesOf ([(1, [0])] : Clusters Nat Nat)) ∧
    cluster_assignment [(1, [0])] [(2, [5])]
      (fun _ _ _ _ => (.ok 0 : Except Unit Int)) [] [] greedySolver =
      .error .keyError :=
  ⟨by decide, rfl⟩

/-- C7 amended: a new cluster containing an entity with no old owner
prevents any normal return — its entities never reach `unassigned`; the
reverse-index lookup of that entity fails first. -/
theorem c7_unmatched_cluster_amended {κ α ε : Type} [DecidableEq κ] [DecidableEq α]
    (old new claims rejected : Clusters κ α)
    (simFn : List α → List α → List α → List α → Except ε Int)
    (solver : List (List Int) → List (Nat × Nat))
    (a : Clusters κ α) (u : List (List α))
    (hnodupNew : (new.map Prod.fst).Nodup)
    (k : κ) (l : List α) (hmem : (k, l) ∈ new)
    (e : α) (he : e ∈ l) (hno : reversedOf old e = none) :
    cluster_assignment old new simFn claims rejected solver ≠ .ok (a, u) := by
  intro hok
  rw [cluster_assignment_eq_mainLoop] at hok
  rcases mainLoop_eq_processList new [] [] _ _ hok with ⟨comps, hcomps, _⟩
  obtain ⟨hMem, _, _, hOwn, _, _, _⟩ :=
    componentsLoop_spec new [] [] comps (fun p hp => hp) hcomps
  have hk := hMem (k, l) hmem
  simp only [List.nil_append] at hk
  rcases List.mem_flatten.mp hk with ⟨cl, hcl, hkcl⟩
  rcases List.mem_map.mp hcl with ⟨comp, hcomp, hle⟩
  rcases hOwn comp hcomp k (hle ▸ hkcl) with hall | ⟨p, hp, hpk, hall⟩
  · have hgd : getD new k = l := by
      rw [getD, dictLookup_of_nodup hnodupNew hmem]
      rfl
    rcases hall e (hgd ▸ he) with ⟨g, hg⟩
    rw [hno] at hg
    cases hg
  · have h1 := dictLookup_of_nodup hnodupNew hmem
    have h2 : dictLookup new k = some p.2 := by
      rw [← hpk]
      exact dictLookup_of_nodup hnodupNew hp
    rw [h1] at h2
    injection h2 with h2
    rcases hall e (h2 ▸ he) with ⟨g, hg⟩
    rw [hno] at hg
    cases hg

/-- C7 amended witness: the `KeyError` scenario of the counterexample
admits no normal return at all. -/
theorem c7_unmatched_cluster_amended_witness :
    cluster_assignment [(1, [0])] [(2, [5])]
      (fun _ _ _ _ => (.ok 0 : Except Unit Int)) [] [] greedySolver ≠
      .ok ([], []) :=
  c7_unmatched_cluster_amended _ _ _ _ _ _ _ _ (by decide) 2 [5] (by decide)
    5 (by decide) (by decide)


theorem exceptBind_congr {E A B : Type} {x : Except E A} {k1 k2 : A → Except E B}
    (h : ∀ a, x = .ok a → k1 a = k2 a) : x >>= k1 = x >>= k2 := by
  cases x with
  | error e => rfl
  | ok a => exact h a rfl

theorem mapE_congr {A B E : Type} {f g : A → Except E B} :
    ∀ l : List A, (∀ a ∈ l, f a = g a) → mapE f l = mapE g l := by
  intro l
  induction l with
  | nil => intro _; rfl
  | cons a as ih =>
    intro h
    show (f a >>= fun b => mapE f as >>= fun bs => .ok (b :: bs)) =
      (g a >>= fun b => mapE g as >>= fun bs => .ok (b :: bs))
    rw [h a (by simp), ih (fun x hx => h x (by simp [hx]))]

theorem dictLookup_append {κ α : Type} [DecidableEq κ]
    (d d' : Clusters κ α) (k : κ) :
    dictLookup (d ++ d') k =
      match dictLookup d k with
      | some l => some l
      | none => dictLookup d' k := by
  induction d with
  | nil => rfl
  | cons p rest ih =>
    obtain ⟨k', v⟩ := p
    rw [List.cons_append, dictLookup_cons, dictLookup_cons]
    by_cases h : k' = k
    · rw [if_pos h, if_pos h]
    · rw [if_neg h, if_neg h, ih]

theorem getD_append_unknown {κ α : Type} [DecidableEq κ]
    {d : Clusters κ α} {g : κ} {lr : List α} {k : κ} (hne : g ≠ k) :
    getD (d ++ [(g, lr)]) k = getD d k := by
  unfold getD
  rw [dictLookup_append]
  cases hd : dictLookup d k with
  | some l => rfl
  | none =>
    show (dictLookup [(g, lr)] k).getD [] = Option.getD none []
    rw [dictLookup_cons, if_neg hne]
    rfl

theorem entitiesOf_append_nil {κ α : Type} (d : Clusters κ α) (g : κ) :
    entitiesOf (d ++ [(g, ([] : List α))]) = entitiesOf d := by
  simp [entitiesOf]

theorem buildRow_congr {κ α ε : Type} [DecidableEq κ]
    {old claims1 claims2 rejected1 rejected2 : Clusters κ α}
    {simFn : List α → List α → List α → List α → Except ε Int}
    {co : List κ} {m : Nat} {nl : List α}
    (hc : ∀ o ∈ co, getD claims1 o = getD claims2 o)
    (hr : ∀ o ∈ co, getD rejected1 o = getD rejected2 o) :
    (buildRow old claims1 rejected1 simFn co m nl : Except (PyErr ε) _) =
      buildRow old claims2 rejected2 simFn co m nl := by
  unfold buildRow
  congr 1
  exact mapE_congr co (fun o ho => by rw [hc o ho, hr o ho])

theorem buildMatrix_congr {κ α ε : Type} [DecidableEq κ]
    {old new claims1 claims2 rejected1 rejected2 : Clusters κ α}
    {simFn : List α → List α → List α → List α → Except ε Int}
    {co cn : List κ}
    (hc : ∀ o ∈ co, getD claims1 o = getD claims2 o)
    (hr : ∀ o ∈ co, getD rejected1 o = getD rejected2 o) :
    (buildMatrix old new claims1 rejected1 simFn co cn : Except (PyErr ε) _) =
      buildMatrix old new claims2 rejected2 simFn co cn := by
  unfold buildMatrix
  exact mapE_congr cn (fun k _ =>
    exceptBind_congr (fun nl _ => buildRow_congr hc hr))

theorem resolveSigs_congr {κ α ε : Type} [DecidableEq κ] [DecidableEq α]
    {old rejected1 rejected2 : Clusters κ α} {cs : List α} {co : List κ}
    {oldLen col : Nat}
    (hr : ∀ gt ∈ co, getD rejected1 gt = getD rejected2 gt) :
    ∀ (sigs : List α) (acc : Clusters κ α × List α),
      (resolveSigs old rejected1 cs co oldLen col sigs acc : Except (PyErr ε) _) =
        resolveSigs old rejected2 cs co oldLen col sigs acc := by
  intro sigs
  induction sigs with
  | nil => intro acc; rfl
  | cons s rest ih =>
    intro acc
    obtain ⟨a, t⟩ := acc
    rw [resolveSigs_cons, resolveSigs_cons]
    by_cases hcs : s ∈ cs
    · rw [if_pos hcs, if_pos hcs]
      exact exceptBind_congr (fun a' _ => ih (a', t))
    · rw [if_neg hcs, if_neg hcs]
      by_cases hcol : col < oldLen
      · rw [if_pos hcol, if_pos hcol]
        refine exceptBind_congr (fun gt hgt => ?_)
        have hgtm : gt ∈ co := List.get?_mem (ofOption_ok.mp hgt)
        rw [hr gt hgtm]
        by_cases hrej : s ∈ getD rejected2 gt
        · rw [if_pos hrej, if_pos hrej]
          exact exceptBind_congr (fun a' _ => ih (a', t))
        · rw [if_neg hrej, if_neg hrej]
          exact exceptBind_congr (fun a' _ => ih (a', t))
      · rw [if_neg hcol, if_neg hcol]
        exact ih (a, t ++ [s])

theorem resolvePairs_congr {κ α ε : Type} [DecidableEq κ] [DecidableEq α]
    {old new rejected1 rejected2 : Clusters κ α} {cs : List α} {co cn : List κ}
    (hr : ∀ gt ∈ co, getD rejected1 gt = getD rejected2 gt) :
    ∀ (pairs : List (Nat × Nat)) (acc : Clusters κ α × List (List α)),
      (resolvePairs old new rejected1 cs co cn pairs acc : Except (PyErr ε) _) =
        resolvePairs old new rejected2 cs co cn pairs acc := by
  intro pairs
  induction pairs with
  | nil => intro acc; rfl
  | cons q rest ih =>
    intro acc
    obtain ⟨i, col⟩ := q
    obtain ⟨a, u⟩ := acc
    show (ofOption .indexError (cn.get? i) >>= fun k =>
        ofOption .keyError (dictLookup new k) >>= fun nl =>
        resolveSigs old rejected1 cs co old.length col nl (a, []) >>= fun r =>
        resolvePairs old new rejected1 cs co cn rest
          (r.1, if r.2.isEmpty then u else u ++ [r.2])) =
      (ofOption .indexError (cn.get? i) >>= fun k =>
        ofOption .keyError (dictLookup new k) >>= fun nl =>
        resolveSigs old rejected2 cs co old.length col nl (a, []) >>= fun r =>
        resolvePairs old new rejected2 cs co cn rest
          (r.1, if r.2.isEmpty then u else u ++ [r.2]))
    refine exceptBind_congr (fun k _ => ?_)
    refine exceptBind_congr (fun nl _ => ?_)
    rw [resolveSigs_congr hr]
    exact exceptBind_congr (fun r _ => ih _)

theorem processComponent_congr {κ α ε : Type} [DecidableEq κ] [DecidableEq α]
    {old new claims1 claims2 rejected1 rejected2 : Clusters κ α}
    {simFn : List α → List α → List α → List α → Except ε Int}
    {solver : List (List Int) → List (Nat × Nat)} {co cn : List κ}
    {acc : Clusters κ α × List (List α)}
    (hE : entitiesOf claims1 = entitiesOf claims2)
    (hc : ∀ o ∈ co, getD claims1 o = getD claims2 o)
    (hr : ∀ o ∈ co, getD rejected1 o = getD rejected2 o) :
    (processComponent old new claims1 rejected1 simFn solver co cn acc :
      Except (PyErr ε) _) =
      processComponent old new claims2 rejected2 simFn solver co cn acc := by
  rw [processComponent_eq, processComponent_eq, buildMatrix_congr hc hr]
  refine exceptBind_congr (fun M _ => ?_)
  rw [hE]
  exact resolvePairs_congr hr _ _

theorem mainLoop_congr {κ α ε : Type} [DecidableEq κ] [DecidableEq α]
    {old new claims1 claims2 rejected1 rejected2 : Clusters κ α}
    {simFn : List α → List α → List α → List α → Except ε Int}
    {solver : List (List Int) → List (Nat × Nat)}
    (hE : entitiesOf claims1 = entitiesOf claims2)
    (hc : ∀ o ∈ old.map Prod.fst, getD claims1 o = getD claims2 o)
    (hr : ∀ o ∈ old.map Prod.fst, getD rejected1 o = getD rejected2 o) :
    ∀ (items : List (κ × List α)), (∀ p ∈ items, p ∈ new) →
      ∀ (ov nv : List κ) (acc : Clusters κ α × List (List α)),
      mainLoop old new claims1 rejected1 simFn solver items ov nv acc =
        mainLoop old new claims2 rejected2 simFn solver items ov nv acc := by
  intro items
  induction items with
  | nil => intro _ ov nv acc; rfl
  | cons item rest ih =>
    intro hitems ov nv acc
    obtain ⟨k, n⟩ := item
    simp only [mainLoop]
    refine exceptBind_congr (fun r hdisc => ?_)
    obtain ⟨co, cn, ov', nv'⟩ := r
    dsimp only
    have hcoP := (discoverComponent_spec (hitems (k, n) (by simp)) hdisc).2.2.2.2.2.2.2.1
    have hcoK : ∀ o ∈ co, o ∈ old.map Prod.fst := by
      intro o ho
      rcases hcoP o ho with ⟨s, _, hrev⟩
      exact reversedOf_mem_keys hrev
    by_cases hcn : cn.isEmpty
    · rw [if_pos hcn, if_pos hcn]
      exact exceptBind_congr (fun acc' _ =>
        ih (fun p hp => hitems p (by simp [hp])) ov' nv' acc')
    · rw [if_neg hcn, if_neg hcn,
        processComponent_congr hE (fun o ho => hc o (hcoK o ho))
          (fun o ho => hr o (hcoK o ho))]
      exact exceptBind_congr (fun acc' _ =>
        ih (fun p hp => hitems p (by simp [hp])) ov' nv' acc')

/-- C8 counterexample: claims key 7 and rejected key 8 are absent from
`old_clusters`, yet the call completes normally — no configuration error
is raised. -/
theorem c8_no_validation_counterexample :
    (7 ∉ ([(1, [1])] : Clusters Nat Nat).map Prod.fst) ∧
    (8 ∉ ([(1, [1])] : Clusters Nat Nat).map Prod.fst) ∧
    cluster_assignment [(1, [1])] [(1, [1])]
      (fun _ _ _ _ => (.ok 0 : Except Unit Int)) [(7, [0])] [(8, [2])]
      greedySolver = .ok ([(1, [1])], []) :=
  ⟨by decide, by decide, rfl⟩

/-- C8 amended: the source never validates claims or rejected keys;
appending an empty-list claims entry and an arbitrary rejected entry
under keys absent from `old_clusters` leaves the entire run — normal or
erroneous — unchanged, rather than failing fast. -/
theorem c8_no_validation_amended {κ α ε : Type} [DecidableEq κ] [DecidableEq α]
    (old new claims rejected : Clusters κ α)
    (simFn : List α → List α → List α → List α → Except ε Int)
    (solver : List (List Int) → List (Nat × Nat))
    (gc gr : κ) (lr : List α)
    (hgc : gc ∉ old.map Prod.fst) (hgr : gr ∉ old.map Prod.fst) :
    (cluster_assignment old new simFn (claims ++ [(gc, [])])
      (rejected ++ [(gr, lr)]) solver : Except (PyErr ε) _) =
      cluster_assignment old new simFn claims rejected solver := by
  rw [cluster_assignment_eq_mainLoop, cluster_assignment_eq_mainLoop]
  exact mainLoop_congr (entitiesOf_append_nil claims gc)
    (fun o ho => getD_append_unknown (fun he => hgc (by rw [he]; exact ho)))
    (fun o ho => getD_append_unknown (fun he => hgr (by rw [he]; exact ho)))
    new (fun p hp => hp) [] [] _

/-- C8 amended witness: adding the stray keys 7 and 8 to claims and
rejected leaves the concrete run unchanged. -/
theorem c8_no_validation_amended_witness :
    (cluster_assignment [(1, [1])] [(1, [1])]
      (fun _ _ _ _ => (.ok 0 : Except Unit Int))
      ([] ++ [(7, [])]) ([] ++ [(8, [2])]) greedySolver :
      Except (PyErr Unit) _) =
      cluster_assignment [(1, [1])] [(1, [1])]
      (fun _ _ _ _ => (.ok 0 : Except Unit Int)) [] [] greedySolver :=
  c8_no_validation_amended _ _ _ _ _ _ 7 8 [2] (by decide) (by decide)


theorem getD_init {κ α : Type} [DecidableEq κ] (old : Clusters κ α) (g : κ) :
    getD (old.map fun kv => (kv.1, ([] : List α))) g = [] := by
  induction old with
  | nil => rfl
  | cons p rest ih =>
    show ((dictLookup ((p.1, []) :: rest.map fun kv => (kv.1, ([] : List α))) g).getD
      []) = []
    rw [dictLookup_cons]
    by_cases h : p.1 = g
    · rw [if_pos h]
      rfl
    · rw [if_neg h]
      exact ih

theorem processList_rej_pos {κ α ε : Type} [DecidableEq κ] [DecidableEq α]
    {old new claims rejected : Clusters κ α}
    {simFn : List α → List α → List α → List α → Except ε Int}
    {solver : List (List Int) → List (Nat × Nat)} :
    ∀ (comps : List (List κ × List κ)) (a : Clusters κ α) (u : List (List α))
      (a' : Clusters κ α) (u' : List (List α)),
      (processList old new claims rejected simFn solver comps (a, u) :
        Except (PyErr ε) _) = .ok (a', u') →
      ∀ comp ∈ comps, ∀ M,
        buildMatrix old new claims rejected simFn comp.1 comp.2 = .ok M →
        ∀ p ∈ solver M, ∀ (k : κ) (nl : List α) (s0 : α) (gt : κ),
          comp.2.get? p.1 = some k → dictLookup new k = some nl → s0 ∈ nl →
          s0 ∉ entitiesOf claims → p.2 < old.length → comp.1.get? p.2 = some gt →
          s0 ∈ getD rejected gt →
          ∃ g, reversedOf old s0 = some g ∧ s0 ∈ getD a' g := by
  intro comps
  induction comps with
  | nil =>
    intro a u a' u' h comp hcomp
    simp at hcomp
  | cons comp0 rest ih =>
    intro a u a' u' h comp hcomp M hM p hp k nl s0 gt hk hnl hs0 hs0cs hcol hgt hrej
    obtain ⟨co, cn⟩ := comp0
    rcases processList_cons_ok.mp h with ⟨⟨a1, u1⟩, hstep, hrest⟩
    rcases List.mem_cons.mp hcomp with hce | hc'
    · subst hce
      rcases processComponent_ok.mp hstep with ⟨M2, hM2, hpairs⟩
      have hM' : buildMatrix old new claims rejected simFn co cn = .ok M := hM
      rw [hM'] at hM2
      injection hM2 with hMM
      subst hMM
      rcases resolvePairs_rej_pos _ _ _ _ _ hpairs p hp k nl s0 gt hk hnl hs0
        hs0cs hcol hgt hrej with ⟨g, hg, hmem⟩
      exact ⟨g, hg, (processList_mono _ _ _ _ _ hrest).1 g s0 hmem⟩
    · exact ih _ _ _ _ hrest comp hc' M hM p hp k nl s0 gt hk hnl hs0 hs0cs
        hcol hgt hrej

/-- C5 counterexample: with old = new = one cluster 0 holding entity 0
and 0 ∈ rejected[0], the solver pairs the new cluster with the real old
column (cost matrix [[-1, 0]]), so g_target = g_orig = 0: the rejected
entity is routed back to the very group that rejected it and IS a
member of assigned[g_target], falsifying the claim's negative half. -/
theorem c5_rejection_counterexample :
    cluster_assignment [(0, [0])] [(0, [0])]
      (fun x y _ _ => (.ok (-((x.filter (· ∈ y)).length : Int)) : Except Unit Int))
      [] [(0, [0])] greedySolver = .ok ([(0, [0])], []) ∧
    buildMatrix [(0, [0])] [(0, [0])] [] [(0, [0])]
      (fun x y _ _ => (.ok (-((x.filter (· ∈ y)).length : Int)) : Except Unit Int))
      [0] [0] = .ok [[-1, 0]] ∧
    greedySolver [[-1, 0]] = [(0, 0)] ∧
    0 ∈ getD ([(0, [0])] : Clusters Nat Nat) 0 :=
  ⟨rfl, rfl, rfl, by decide⟩

/-- C5 amended: add the missing hypothesis `g_orig ≠ g_target`.  If
entity `e` of old group `g_orig` is unclaimed, the solver pairs its new
cluster with a real column holding old group `g_target`, and `e` is in
`rejected[g_target]` with `g_orig ≠ g_target`, then `e` lands in
`assigned[g_orig]` and not in `assigned[g_target]`. -/
theorem c5_rejection_amended {κ α ε : Type} [DecidableEq κ] [DecidableEq α]
    (old new claims rejected : Clusters κ α)
    (simFn : List α → List α → List α → List α → Except ε Int)
    (solver : List (List Int) → List (Nat × Nat))
    (a : Clusters κ α) (u : List (List α))
    (hdisjOld : DisjointClusters old)
    (hok : cluster_assignment old new simFn claims rejected solver = .ok (a, u))
    (comps : List (List κ × List κ))
    (hcomps : (componentsOf old new : Except (PyErr ε) _) = .ok comps)
    (comp : List κ × List κ) (hcomp : comp ∈ comps)
    (M : List (List Int))
    (hM : buildMatrix old new claims rejected simFn comp.1 comp.2 = .ok M)
    (p : Nat × Nat) (hp : p ∈ solver M)
    (k : κ) (hk : comp.2.get? p.1 = some k)
    (nl : List α) (hnl : dictLookup new k = some nl)
    (e : α) (he : e ∈ nl)
    (hcl : e ∉ entitiesOf claims)
    (hcol : p.2 < old.length)
    (g_target : κ) (hgt : comp.1.get? p.2 = some g_target)
    (hrej : e ∈ getD rejected g_target)
    (g_orig : κ) (ol : List α) (hgo : (g_orig, ol) ∈ old) (heol : e ∈ ol)
    (hne : g_orig ≠ g_target) :
    e ∈ getD a g_orig ∧ e ∉ getD a g_target := by
  rw [cluster_assignment_eq_mainLoop] at hok
  rcases mainLoop_eq_processList new [] [] _ _ hok with ⟨comps', hcomps', hproc⟩
  have hcomps2 : (componentsOf old new : Except (PyErr ε) _) = .ok comps' := hcomps'
  rw [hcomps] at hcomps2
  injection hcomps2 with hce
  subst hce
  have hrev := reversedOf_of_disjoint hdisjOld hgo heol
  constructor
  · rcases processList_rej_pos comps _ _ _ _ hproc comp hcomp M hM p hp k nl e
      g_target hk hnl he hcl hcol hgt hrej with ⟨g, hg, hmem⟩
    rw [hrev] at hg
    injection hg with hg
    rw [← hg] at hmem
    exact hmem
  · intro hmem
    rcases processList_mem_inv comps _ _ _ _ hproc g_target e hmem with h0 |
      ⟨comp1, hcomp1, M1, hM1, p1, hp1, k1, nl1, hk1, hnl1, s, hs, hes, hrt⟩
    · rw [getD_init] at h0
      cases h0
    · subst hes
      rcases hrt with ⟨hscs, _⟩ | ⟨_, _, gt, hgtget, ⟨_, hrevt⟩ | ⟨hnrej, hgeq⟩⟩
      · exact hcl hscs
      · rw [hrev] at hrevt
        injection hrevt with hrevt
        exact hne hrevt
      · rw [← hgeq] at hnrej
        exact hnrej hrej

/-- C5 amended witness: the rejected-entity scenario of the test suite;
entity 2 of old group 1, rejected by old group 2 which the solver pairs
with its new cluster, returns to group 1 and stays out of group 2. -/
theorem c5_rejection_amended_witness :
    2 ∈ getD ([(1, [1, 2]), (2, [3])] : Clusters Nat Nat) 1 ∧
    2 ∉ getD ([(1, [1, 2]), (2, [3])] : Clusters Nat Nat) 2 := by
  have hok : cluster_assignment [(1, [1, 2]), (2, [3])] [(1, [1]), (2, [2, 3])]
      (fun x y _ _ => (.ok (-((x.filter (· ∈ y)).length : Int)) : Except Unit Int))
      [] [(2, [2])] greedySolver = .ok ([(1, [1, 2]), (2, [3])], []) := rfl
  have hcomps : (componentsOf [(1, [1, 2]), (2, [3])] [(1, [1]), (2, [2, 3])] :
      Except (PyErr Unit) _) = .ok [([1, 2], [1, 2])] := rfl
  have hM : buildMatrix [(1, [1, 2]), (2, [3])] [(1, [1]), (2, [2, 3])] []
      [(2, [2])]
      (fun x y _ _ => (.ok (-((x.filter (· ∈ y)).length : Int)) : Except Unit Int))
      ([1, 2], [1, 2]).1 ([1, 2], [1, 2]).2 =
      .ok [[-1, 0, 0, 0], [-1, -1, 0, 0]] := rfl
  exact c5_rejection_amended _ _ _ _ _ _ _ _ (by decide) hok _ hcomps
    ([1, 2], [1, 2]) (by decide) _ hM (1, 1) (by decide) 2 (by decide)
    [2, 3] (by decide) 2 (by decide) (by decide) (by decide) 2 (by decide)
    (by decide) 1 [1, 2] (by decide) (by decide) (by decide)

theorem bindOk_eval {E A B : Type} (a : A) (k : A → Except E B) :
    (Except.ok a >>= k) = k a := rfl

theorem bindErr_eval {E A B : Type} (e : E) (k : A → Except E B) :
    (Except.error e >>= k) = .error e := rfl

theorem foldlM_error {E S A : Type} {g : S → A → Except E S} :
    ∀ (l : List A) (s : S) (err : E), l.foldlM g s = .error err →
      ∃ t a, a ∈ l ∧ g t a = .error err := by
  intro l
  induction l with
  | nil =>
    intro s err h
    simp [List.foldlM_nil, pure, Except.pure] at h
  | cons a as ih =>
    intro s err h
    simp only [List.foldlM_cons] at h
    rcases exceptBind_error.mp h with h' | ⟨t, _, hrest⟩
    · exact ⟨s, a, by simp, h'⟩
    · rcases ih t err hrest with ⟨t1, b, hb, hgb⟩
      exact ⟨t1, b, by simp [hb], hgb⟩

theorem mapE_error {A B E : Type} {f : A → Except E B} :
    ∀ (l : List A) (err : E), mapE f l = .error err → ∃ a ∈ l, f a = .error err := by
  intro l
  induction l with
  | nil => intro err h; cases h
  | cons a as ih =>
    intro err h
    rw [mapE_cons] at h
    rcases exceptBind_error.mp h with h' | ⟨b, _, h2⟩
    · exact ⟨a, by simp, h'⟩
    · rcases exceptBind_error.mp h2 with h'' | ⟨bs, _, h3⟩
      · rcases ih err h'' with ⟨x, hx, hfx⟩
        exact ⟨x, by simp [hx], hfx⟩
      · cases h3

theorem appendAt_no_user {κ α ε : Type} [DecidableEq κ] {e0 : ε} :
    ∀ (d : Clusters κ α) (k : κ) (s : α),
      (appendAt d k s : Except (PyErr ε) _) ≠ .error (.user e0) := by
  intro d
  induction d with
  | nil =>
    intro k s h
    injection h with h
    cases h
  | cons p rest ih =>
    intro k s h
    obtain ⟨k', l⟩ := p
    rw [appendAt_cons] at h
    by_cases hk : k' = k
    · rw [if_pos hk] at h
      cases h
    · rw [if_neg hk] at h
      rcases exceptBind_error.mp h with h' | ⟨r, _, h3⟩
      · exact ih k s h'
      · cases h3

theorem routeBack_no_user {κ α ε : Type} [DecidableEq κ] [DecidableEq α]
    {old a : Clusters κ α} {s : α} {e0 : ε}
    (h : (routeBack old a s : Except (PyErr ε) _) = .error (.user e0)) : False := by
  rw [routeBack_eq] at h
  rcases exceptBind_error.mp h with h' | ⟨g, _, h2⟩
  · rcases ofOption_error.mp h' with ⟨_, he⟩
    cases he
  · exact appendAt_no_user _ _ _ h2

theorem digOld_user {κ α ε : Type} [DecidableEq κ] [DecidableEq α]
    {old new : Clusters κ α} {f : Nat} {t : St κ} {sig : α} {e0 : ε} :
    ((match reversedOf old sig with
      | none => Except.error PyErr.keyError
      | some owner =>
        if owner ∈ t.oldVisited then Except.ok t
        else traverse old new f false t owner) : Except (PyErr ε) (St κ)) =
      Except.error (.user e0) ↔
    (∃ owner, reversedOf old sig = some owner ∧ owner ∉ t.oldVisited ∧
      (traverse old new f false t owner : Except (PyErr ε) _) =
        .error (.user e0)) := by
  cases hrev : reversedOf old sig with
  | none => simp
  | some owner =>
    by_cases hvis : owner ∈ t.oldVisited
    · simp [hvis]
    · simp [hvis]

theorem digNew_user {κ α ε : Type} [DecidableEq κ] [DecidableEq α]
    {old new : Clusters κ α} {f : Nat} {t : St κ} {sig : α} {e0 : ε} :
    ((match reversedOf new sig with
      | none => Except.error PyErr.keyError
      | some owner =>
        if owner ∈ t.newVisited then Except.ok t
        else traverse old new f true t owner) : Except (PyErr ε) (St κ)) =
      Except.error (.user e0) ↔
    (∃ owner, reversedOf new sig = some owner ∧ owner ∉ t.newVisited ∧
      (traverse old new f true t owner : Except (PyErr ε) _) =
        .error (.user e0)) := by
  cases hrev : reversedOf new sig with
  | none => simp
  | some owner =>
    by_cases hvis : owner ∈ t.newVisited
    · simp [hvis]
    · simp [hvis]

theorem traverse_no_user {κ α ε : Type} [DecidableEq κ] [DecidableEq α]
    {old new : Clusters κ α} {e0 : ε} :
    ∀ (fuel : Nat) (side : Bool) (st : St κ) (c : κ),
      (traverse old new fuel side st c : Except (PyErr ε) _) ≠
        .error (.user e0) := by
  intro fuel
  induction fuel with
  | zero =>
    intro side st c h
    injection h with h
    cases h
  | succ n ih =>
    intro side st c h
    cases side
    · rw [traverse_false_eq] at h
      cases hd : dictLookup old c with
      | none =>
        rw [hd] at h
        injection h with h
        cases h
      | some contents =>
        rw [hd] at h
        rcases foldlM_error contents _ _ h with ⟨t, sig, _, hstep⟩
        rcases digNew_user.mp hstep with ⟨owner, _, _, hrec⟩
        exact ih true t owner hrec
    · rw [traverse_true_eq] at h
      cases hd : dictLookup new c with
      | none =>
        rw [hd] at h
        injection h with h
        cases h
      | some contents =>
        rw [hd] at h
        rcases foldlM_error contents _ _ h with ⟨t, sig, _, hstep⟩
        rcases digOld_user.mp hstep with ⟨owner, _, _, hrec⟩
        exact ih false t owner hrec

theorem discoverComponent_no_user {κ α ε : Type} [DecidableEq κ] [DecidableEq α]
    {old new : Clusters κ α} {ov nv : List κ} {k : κ} {n : List α} {e0 : ε}
    (h : (discoverComponent old new ov nv k n : Except (PyErr ε) _) =
      .error (.user e0)) : False := by
  rw [discoverComponent_eq] at h
  by_cases hv : k ∈ nv
  · rw [if_pos hv] at h
    cases h
  · rw [if_neg hv] at h
    rcases exceptBind_error.mp h with h' | ⟨st, _, hok⟩
    · rcases foldlM_error n _ _ h' with ⟨t, sig, _, hstep⟩
      rcases digOld_user.mp hstep with ⟨owner, _, _, hrec⟩
      exact traverse_no_user _ false t owner hrec
    · cases hok

theorem buildRow_user_src {κ α ε : Type} [DecidableEq κ]
    {old claims rejected : Clusters κ α}
    {simFn : List α → List α → List α → List α → Except ε Int}
    {co : List κ} {m : Nat} {nl : List α} {e0 : ε}
    (h : (buildRow old claims rejected simFn co m nl : Except (PyErr ε) _) =
      .error (.user e0)) :
    ∃ x y c r, simFn x y c r = .error e0 := by
  unfold buildRow at h
  rcases exceptBind_error.mp h with h1 | ⟨reals, _, h2⟩
  · rcases mapE_error _ _ h1 with ⟨g, _, hg⟩
    rcases exceptBind_error.mp hg with h3 | ⟨ol, _, h4⟩
    · rcases ofOption_error.mp h3 with ⟨_, he⟩
      cases he
    · rcases liftUser_error.mp h4 with ⟨e1, hsim, he⟩
      injection he with he
      rw [← he] at hsim
      exact ⟨nl, ol, getD claims g, getD rejected g, hsim⟩
  · rcases exceptBind_error.mp h2 with h3 | ⟨dummies, _, h4⟩
    · rcases mapE_error _ _ h3 with ⟨j, _, hj⟩
      rcases liftUser_error.mp hj with ⟨e1, hsim, he⟩
      injection he with he
      rw [← he] at hsim
      exact ⟨nl, [], [], [], hsim⟩
    · cases h4

theorem buildMatrix_user_src {κ α ε : Type} [DecidableEq κ]
    {old new claims rejected : Clusters κ α}
    {simFn : List α → List α → List α → List α → Except ε Int}
    {co cn : List κ} {e0 : ε}
    (h : (buildMatrix old new claims rejected simFn co cn : Except (PyErr ε) _) =
      .error (.user e0)) :
    ∃ x y c r, simFn x y c r = .error e0 := by
  unfold buildMatrix at h
  rcases mapE_error _ _ h with ⟨k, _, hk⟩
  rcases exceptBind_error.mp hk with h1 | ⟨nl, _, h2⟩
  · rcases ofOption_error.mp h1 with ⟨_, he⟩
    cases he
  · exact buildRow_user_src h2

theorem resolveSigs_no_user {κ α ε : Type} [DecidableEq κ] [DecidableEq α]
    {old rejected : Clusters κ α} {cs : List α} {co : List κ}
    {oldLen col : Nat} {e0 : ε} :
    ∀ (sigs : List α) (acc : Clusters κ α × List α),
      (resolveSigs old rejected cs co oldLen col sigs acc : Except (PyErr ε) _) ≠
        .error (.user e0) := by
  intro sigs
  induction sigs with
  | nil => intro acc h; cases h
  | cons s rest ih =>
    intro acc h
    obtain ⟨a, t⟩ := acc
    rw [resolveSigs_cons] at h
    by_cases hcs : s ∈ cs
    · rw [if_pos hcs] at h
      rcases exceptBind_error.mp h with h' | ⟨a', _, h2⟩
      · exact routeBack_no_user h'
      · exact ih (a', t) h2
    · rw [if_neg hcs] at h
      by_cases hcol : col < oldLen
      · rw [if_pos hcol] at h
        rcases exceptBind_error.mp h with h' | ⟨gt, _, h2⟩
        · rcases ofOption_error.mp h' with ⟨_, he⟩
          cases he
        · by_cases hrej : s ∈ getD rejected gt
          · rw [if_pos hrej] at h2
            rcases exceptBind_error.mp h2 with h3 | ⟨a', _, h4⟩
            · exact routeBack_no_user h3
            · exact ih (a', t) h4
          · rw [if_neg hrej] at h2
            rcases exceptBind_error.mp h2 with h3 | ⟨a', _, h4⟩
            · exact appendAt_no_user _ _ _ h3
            · exact ih (a', t) h4
      · rw [if_neg hcol] at h
        exact ih (a, t ++ [s]) h

theorem resolvePairs_no_user {κ α ε : Type} [DecidableEq κ] [DecidableEq α]
    {old new rejected : Clusters κ α} {cs : List α} {co cn : List κ} {e0 : ε} :
    ∀ (pairs : List (Nat × Nat)) (acc : Clusters κ α × List (List α)),
      (resolvePairs old new rejected cs co cn pairs acc : Except (PyErr ε) _) ≠
        .error (.user e0) := by
  intro pairs
  induction pairs with
  | nil => intro acc h; cases h
  | cons q rest ih =>
    intro acc h
    obtain ⟨i, col⟩ := q
    obtain ⟨a, u⟩ := acc
    rw [resolvePairs_cons] at h
    rcases exceptBind_error.mp h with h1 | ⟨k, _, h2⟩
    · rcases ofOption_error.mp h1 with ⟨_, he⟩
      cases he
    · rcases exceptBind_error.mp h2 with h3 | ⟨nl, _, h4⟩
      · rcases ofOption_error.mp h3 with ⟨_, he⟩
        cases he
      · rcases exceptBind_error.mp h4 with h5 | ⟨r, _, h6⟩
        · exact resolveSigs_no_user _ _ h5
        · exact ih _ h6

theorem mainLoop_user_src {κ α ε : Type} [DecidableEq κ] [DecidableEq α]
    {old new claims rejected : Clusters κ α}
    {simFn : List α → List α → List α → List α → Except ε Int}
    {solver : List (List Int) → List (Nat × Nat)} {e0 : ε} :
    ∀ (items : List (κ × List α)) (ov nv : List κ)
      (acc : Clusters κ α × List (List α)),
      mainLoop old new claims rejected simFn solver items ov nv acc =
        .error (.user e0) →
      ∃ x y c r, simFn x y c r = .error e0 := by
  intro items
  induction items with
  | nil => intro ov nv acc h; cases h
  | cons item rest ih =>
    intro ov nv acc h
    obtain ⟨k, n⟩ := item
    simp only [mainLoop] at h
    rcases exceptBind_error.mp h with h1 | ⟨r, _, h2⟩
    · exact (discoverComponent_no_user h1).elim
    · obtain ⟨co, cn, ov', nv'⟩ := r
      dsimp only at h2
      by_cases hcn : cn.isEmpty
      · rw [if_pos hcn, bindOk_eval] at h2
        exact ih ov' nv' acc h2
      · rw [if_neg hcn] at h2
        rcases exceptBind_error.mp h2 with h3 | ⟨acc', _, h4⟩
        · rw [processComponent_eq] at h3
          rcases exceptBind_error.mp h3 with h5 | ⟨M, _, h6⟩
          · exact buildMatrix_user_src h5
          · exact (resolvePairs_no_user _ _ h6).elim
        · exact ih ov' nv' acc' h4

theorem buildRow_user_fail {κ α ε : Type} [DecidableEq κ]
    {old claims rejected : Clusters κ α}
    {simFn : List α → List α → List α → List α → Except ε Int}
    {co : List κ} {m : Nat} {nl : List α} {e : ε}
    (hsim : ∀ x y c r, simFn x y c r = .error e)
    (hco : ∀ g ∈ co, ∃ l, dictLookup old g = some l)
    (hm : 0 < m) :
    (buildRow old claims rejected simFn co m nl : Except (PyErr ε) _) =
      .error (.user e) := by
  unfold buildRow
  cases co with
  | nil =>
    rw [mapE_nil, bindOk_eval]
    rcases Nat.exists_eq_succ_of_ne_zero (Nat.pos_iff_ne_zero.mp hm) with ⟨m', rfl⟩
    rw [List.range_succ_eq_map, mapE_cons]
    rw [hsim]
    rfl
  | cons g co' =>
    rw [mapE_cons]
    rcases hco g (by simp) with ⟨l, hl⟩
    have h1 : (do
        let ol ← ofOption .keyError (dictLookup old g)
        liftUser (simFn nl ol (getD claims g) (getD rejected g)) :
        Except (PyErr ε) Int) = .error (.user e) := by
      rw [hl]
      show liftUser (simFn nl l (getD claims g) (getD rejected g)) =
        .error (.user e)
      rw [hsim]
      rfl
    rw [h1]
    rfl

theorem buildMatrix_user_fail {κ α ε : Type} [DecidableEq κ]
    {old new claims rejected : Clusters κ α}
    {simFn : List α → List α → List α → List α → Except ε Int}
    {co cn : List κ} {e : ε}
    (hsim : ∀ x y c r, simFn x y c r = .error e)
    (hcn : cn ≠ [])
    (hco : ∀ g ∈ co, ∃ l, dictLookup old g = some l)
    (hcnk : ∀ c ∈ cn, ∃ l, dictLookup new c = some l) :
    (buildMatrix old new claims rejected simFn co cn : Except (PyErr ε) _) =
      .error (.user e) := by
  unfold buildMatrix
  cases cn with
  | nil => exact absurd rfl hcn
  | cons c cs' =>
    rw [mapE_cons]
    rcases hcnk c (by simp) with ⟨nl, hnl⟩
    have h1 : (do
        let nl0 ← ofOption .keyError (dictLookup new c)
        buildRow old claims rejected simFn co (c :: cs').length nl0 :
        Except (PyErr ε) (List Int)) = .error (.user e) := by
      rw [hnl]
      show (buildRow old claims rejected simFn co (c :: cs').length nl :
        Except (PyErr ε) _) = .error (.user e)
      exact buildRow_user_fail hsim hco (by simp)
    rw [h1]
    rfl

theorem mainLoop_user_fail {κ α ε : Type} [DecidableEq κ] [DecidableEq α]
    {old new claims rejected : Clusters κ α}
    {simFn : List α → List α → List α → List α → Except ε Int}
    {solver : List (List Int) → List (Nat × Nat)} {e : ε}
    (hsim : ∀ x y c r, simFn x y c r = .error e) :
    ∀ (items : List (κ × List α)), (∀ p ∈ items, p ∈ new) →
      ∀ (ov nv : List κ) (acc : Clusters κ α × List (List α))
        (comps : List (List κ × List κ)),
      (componentsLoop old new items ov nv : Except (PyErr ε) _) = .ok comps →
      comps ≠ [] →
      mainLoop old new claims rejected simFn solver items ov nv acc =
        .error (.user e) := by
  intro items
  induction items with
  | nil =>
    intro _ ov nv acc comps hcl hne
    injection hcl with hcl
    exact absurd hcl.symm hne
  | cons item rest ih =>
    intro hitems ov nv acc comps hcl hne
    obtain ⟨k, n⟩ := item
    rw [componentsLoop_cons] at hcl
    rcases exceptBind_ok.mp hcl with ⟨⟨co, cn, ov', nv'⟩, hdisc, h2⟩
    rcases exceptBind_ok.mp h2 with ⟨comps1, hrest, hok⟩
    injection hok with hok
    simp only [mainLoop]
    rw [hdisc, bindOk_eval]
    dsimp only
    obtain ⟨_, _, _, _, _, hcnKeys, _, hcoProv, _, _, _⟩ :=
      discoverComponent_spec (hitems (k, n) (by simp)) hdisc
    by_cases hcn : cn.isEmpty
    · rw [if_pos hcn, bindOk_eval]
      rw [if_pos hcn] at hok
      rw [hok] at hrest
      exact ih (fun p hp => hitems p (by simp [hp])) ov' nv' acc comps hrest hne
    · rw [if_neg hcn]
      have hcn' : cn ≠ [] := fun hc => hcn (by rw [hc]; rfl)
      have hco : ∀ g ∈ co, ∃ l, dictLookup old g = some l := by
        intro g hg
        rcases hcoProv g hg with ⟨s, _, hrev⟩
        exact dictLookup_isSome_of_mem (reversedOf_mem_keys hrev)
      have hcnk : ∀ c ∈ cn, ∃ l, dictLookup new c = some l := fun c hc =>
        dictLookup_isSome_of_mem (hcnKeys c hc)
      rw [processComponent_eq, buildMatrix_user_fail hsim hcn' hco hcnk]
      rfl

/-- C9: cost-function exceptions propagate unmodified.  First half: any
surfaced user exception is one the cost function actually returns on
some argument tuple — the run fabricates or substitutes nothing.
Second half: when the cost function always raises `e` and the
decomposition yields at least one component, the whole call raises
exactly `e` — no retry or suppression happens around the calls made
while building cost matrices. -/
theorem c9_cost_exception_propagation {κ α ε : Type} [DecidableEq κ] [DecidableEq α]
    (old new claims rejected : Clusters κ α)
    (simFn : List α → List α → List α → List α → Except ε Int)
    (solver : List (List Int) → List (Nat × Nat)) :
    (∀ e0, cluster_assignment old new simFn claims rejected solver =
        .error (.user e0) →
      ∃ x y c r, simFn x y c r = .error e0) ∧
    (∀ e, (∀ x y c r, simFn x y c r = .error e) →
      ∀ comps comp, (componentsOf old new : Except (PyErr ε) _) = .ok comps →
        comp ∈ comps →
        cluster_assignment old new simFn claims rejected solver =
          .error (.user e)) := by
  constructor
  · intro e0 h
    rw [cluster_assignment_eq_mainLoop] at h
    exact mainLoop_user_src new [] [] _ h
  · intro e hsim comps comp hcomps hcomp
    rw [cluster_assignment_eq_mainLoop]
    refine mainLoop_user_fail hsim new (fun p hp => hp) [] [] _ comps hcomps ?_
    intro hc
    rw [hc] at hcomp
    cases hcomp

/-- C9 witness: an always-raising cost function makes the concrete call
surface exactly that exception. -/
theorem c9_cost_exception_propagation_witness :
    cluster_assignment [(1, [1])] [(1, [1])]
      (fun _ _ _ _ => (.error 42 : Except Nat Int)) [] [] greedySolver =
      .error (.user 42) := by
  have hcomps : (componentsOf [(1, [1])] [(1, [1])] : Except (PyErr Nat) _) =
      .ok [([1], [1])] := rfl
  exact (c9_cost_exception_propagation _ _ _ _ _ _).2 42 (fun _ _ _ _ => rfl)
    [([1], [1])] ([1], [1]) hcomps (by decide)

end Beard
